import Mathlib

/-!
Verification of the SimpleJSONTableEditor repository (a browser JSON
table editor).  The development shallowly embeds the data model and the
operations of `src/lib/data-utils.ts`, the application-level handlers of
`src/backup/App.tsx` (`updateCell`, `handleSort`, the import handlers)
and the keyboard navigation logic of
`src/components/Editor/DataTable.tsx` as executable Lean functions, and
proves the specified properties about them.

Conventions of the embedding:
* JavaScript runtime values that can live in a table cell are the
  inductive `Val` (JSON values: null, booleans, numbers, strings,
  arrays, objects).  `undefined` is represented by absence (`Option`).
* JavaScript objects are association lists `List (String × Val)` in
  insertion order with unique keys; JS additionally fronts
  integer-like keys, which none of the verified properties depend on.
* JavaScript numbers are `JsNum`: an exact rational or ±Infinity.
  Finite values are exact rationals rather than IEEE doubles; none of
  the verified properties depends on double rounding, and `NaN` never
  reaches a cell in the modelled code paths (all call sites guard with
  `isNaN`).
* String primitives (`trim`, `toLowerCase`, `split`) are re-implemented
  over the character list of the string, covering the ASCII and common
  Unicode whitespace used by JS.
-/

namespace S2P

/-- JavaScript number: an exact finite rational or an infinity. -/
inductive JsNum where
  | finite (q : ℚ)
  | posInf
  | negInf
deriving DecidableEq, Repr

/-- JavaScript cell value as stored in a table row: the JSON value
universe of `CellValue` in `data-utils.ts` (plus nested objects and
heterogeneous arrays, which the code stores as-is after import). -/
inductive Val where
  | null
  | bool (b : Bool)
  | num (n : JsNum)
  | str (s : String)
  | arr (elems : List Val)
  | obj (fields : List (String × Val))

namespace Val

mutual

def decEq : (a b : Val) → Decidable (a = b)
  | .null, .null => .isTrue rfl
  | .null, .bool _ => .isFalse (fun h => Val.noConfusion h)
  | .null, .num _ => .isFalse (fun h => Val.noConfusion h)
  | .null, .str _ => .isFalse (fun h => Val.noConfusion h)
  | .null, .arr _ => .isFalse (fun h => Val.noConfusion h)
  | .null, .obj _ => .isFalse (fun h => Val.noConfusion h)
  | .bool _, .null => .isFalse (fun h => Val.noConfusion h)
  | .bool a, .bool b =>
      if h : a = b then .isTrue (by rw [h]) else .isFalse (fun e => h (by injection e))
  | .bool _, .num _ => .isFalse (fun h => Val.noConfusion h)
  | .bool _, .str _ => .isFalse (fun h => Val.noConfusion h)
  | .bool _, .arr _ => .isFalse (fun h => Val.noConfusion h)
  | .bool _, .obj _ => .isFalse (fun h => Val.noConfusion h)
  | .num _, .null => .isFalse (fun h => Val.noConfusion h)
  | .num _, .bool _ => .isFalse (fun h => Val.noConfusion h)
  | .num a, .num b =>
      if h : a = b then .isTrue (by rw [h]) else .isFalse (fun e => h (by injection e))
  | .num _, .str _ => .isFalse (fun h => Val.noConfusion h)
  | .num _, .arr _ => .isFalse (fun h => Val.noConfusion h)
  | .num _, .obj _ => .isFalse (fun h => Val.noConfusion h)
  | .str _, .null => .isFalse (fun h => Val.noConfusion h)
  | .str _, .bool _ => .isFalse (fun h => Val.noConfusion h)
  | .str _, .num _ => .isFalse (fun h => Val.noConfusion h)
  | .str a, .str b =>
      if h : a = b then .isTrue (by rw [h]) else .isFalse (fun e => h (by injection e))
  | .str _, .arr _ => .isFalse (fun h => Val.noConfusion h)
  | .str _, .obj _ => .isFalse (fun h => Val.noConfusion h)
  | .arr _, .null => .isFalse (fun h => Val.noConfusion h)
  | .arr _, .bool _ => .isFalse (fun h => Val.noConfusion h)
  | .arr _, .num _ => .isFalse (fun h => Val.noConfusion h)
  | .arr _, .str _ => .isFalse (fun h => Val.noConfusion h)
  | .arr xs, .arr ys =>
      match decEqList xs ys with
      | .isTrue h => .isTrue (by rw [h])
      | .isFalse h => .isFalse (fun e => h (by injection e))
  | .arr _, .obj _ => .isFalse (fun h => Val.noConfusion h)
  | .obj _, .null => .isFalse (fun h => Val.noConfusion h)
  | .obj _, .bool _ => .isFalse (fun h => Val.noConfusion h)
  | .obj _, .num _ => .isFalse (fun h => Val.noConfusion h)
  | .obj _, .str _ => .isFalse (fun h => Val.noConfusion h)
  | .obj _, .arr _ => .isFalse (fun h => Val.noConfusion h)
  | .obj xs, .obj ys =>
      match decEqFields xs ys with
      | .isTrue h => .isTrue (by rw [h])
      | .isFalse h => .isFalse (fun e => h (by injection e))

def decEqList : (a b : List Val) → Decidable (a = b)
  | [], [] => .isTrue rfl
  | [], _ :: _ => .isFalse (fun h => List.noConfusion h)
  | _ :: _, [] => .isFalse (fun h => List.noConfusion h)
  | x :: xs, y :: ys =>
      match decEq x y, decEqList xs ys with
      | .isTrue h1, .isTrue h2 => .isTrue (by rw [h1, h2])
      | .isFalse h1, _ => .isFalse (fun e => h1 (by injection e))
      | _, .isFalse h2 => .isFalse (fun e => h2 (by injection e))

def decEqFields : (a b : List (String × Val)) → Decidable (a = b)
  | [], [] => .isTrue rfl
  | [], _ :: _ => .isFalse (fun h => List.noConfusion h)
  | _ :: _, [] => .isFalse (fun h => List.noConfusion h)
  | (k, v) :: xs, (k', v') :: ys =>
      match (inferInstance : Decidable (k = k')), decEq v v', decEqFields xs ys with
      | .isTrue h0, .isTrue h1, .isTrue h2 => .isTrue (by rw [h0, h1, h2])
      | .isFalse h0, _, _ =>
          .isFalse (fun e => h0 (by injection e with e1 e2; injection e1))
      | _, .isFalse h1, _ =>
          .isFalse (fun e => h1 (by injection e with e1 e2; injection e1))
      | _, _, .isFalse h2 => .isFalse (fun e => h2 (by injection e))

end

instance : DecidableEq Val := decEq

end Val

/-- A table row: a JS object, i.e. an association list in insertion
order (`TableRow` in `data-utils.ts`). -/
abbrev Row := List (String × Val)

/-- Column type tags of `ColumnType` in `data-utils.ts`. -/
inductive ColumnType where
  | text
  | number
  | boolean
  | list
  | object
  | auto
deriving DecidableEq, Repr

/-! ### JavaScript string primitives

The JS string methods used by the code (`trim`, `toLowerCase`,
`split`) are re-implemented over the character list of the string so
that everything evaluates inside the kernel. -/

/-- Whitespace recognised by JS `String.prototype.trim` and by
`Number(string)`: ASCII whitespace plus NBSP, BOM and the Unicode line
and paragraph separators. -/
def jsIsWhite (c : Char) : Bool :=
  c = ' ' || c.val = 9 || c.val = 10 || c.val = 11 || c.val = 12 || c.val = 13 ||
  c.val = 0xA0 || c.val = 0xFEFF || c.val = 0x2028 || c.val = 0x2029

/-- JS `String.prototype.trim`. -/
def jsTrim (s : String) : String :=
  ⟨((s.data.dropWhile jsIsWhite).reverse.dropWhile jsIsWhite).reverse⟩

/-- ASCII `String.prototype.toLowerCase` (the inputs compared against
"true" and "false" only need the ASCII range). -/
def jsLower (s : String) : String :=
  ⟨s.data.map (fun c => if 'A' ≤ c && c ≤ 'Z' then Char.ofNat (c.toNat + 32) else c)⟩

/-- Splits a character list at every occurrence of `sep`, JS
`String.prototype.split` style (an empty string yields `[""]`, and
separators at the ends produce empty segments). -/
def splitCharAux (sep : Char) : List Char → List Char → List String
  | [], acc => [⟨acc.reverse⟩]
  | c :: rest, acc =>
      if c = sep then ⟨acc.reverse⟩ :: splitCharAux sep rest []
      else splitCharAux sep rest (c :: acc)

/-- JS `s.split(sep)` for a single-character separator. -/
def jsSplit (s : String) (sep : Char) : List String :=
  splitCharAux sep s.data []

/-! ### The `Number(string)` conversion

`parseArrayInput` and the quick-add footer classify a segment as a
number exactly when `!isNaN(Number(segment))`.  `jsParseNumber`
implements the ECMAScript `StringNumericLiteral` grammar; it returns
`none` where `Number` returns `NaN`.  Finite values are exact
rationals (double rounding, and the overflow of huge literals to
Infinity, are not modelled; no verified property depends on them). -/

def isDecDigit (c : Char) : Bool := '0' ≤ c && c ≤ '9'

def digitsToNat (cs : List Char) : Nat :=
  cs.foldl (fun a c => a * 10 + (c.toNat - 48)) 0

/-- Parses the optional exponent suffix of a decimal literal; returns
`none` when the remaining characters are not a well-formed exponent
part consuming the whole rest. -/
def parseExpPart : List Char → Option Int
  | [] => some 0
  | e :: rest =>
      if e = 'e' || e = 'E' then
        match rest with
        | '+' :: ds => if ds ≠ [] && ds.all isDecDigit then some (digitsToNat ds) else none
        | '-' :: ds => if ds ≠ [] && ds.all isDecDigit then some (-(digitsToNat ds : Int)) else none
        | ds => if ds ≠ [] && ds.all isDecDigit then some (digitsToNat ds) else none
      else none

/-- Builds the rational `sgn * mant * 10^e` through integer
arithmetic and a single `mkRat` (which the kernel can evaluate). -/
def mkDecimal (sgn : Int) (mant : Nat) (e : Int) : ℚ :=
  if 0 ≤ e then mkRat (sgn * mant * 10 ^ e.toNat) 1
  else mkRat (sgn * mant) (10 ^ (-e).toNat)

/-- Parses an unsigned `StrUnsignedDecimalLiteral` ("Infinity",
`digits[.digits][exp]` or `.digits[exp]`), consuming the whole list;
`sgn` is the sign carried in from the caller. -/
def parseUnsignedJs (sgn : Int) (cs : List Char) : Option JsNum :=
  if cs = "Infinity".data then some (if sgn < 0 then .negInf else .posInf)
  else
    let intPart := cs.takeWhile isDecDigit
    let rest1 := cs.dropWhile isDecDigit
    match rest1 with
    | '.' :: rest2 =>
        let fracPart := rest2.takeWhile isDecDigit
        let rest3 := rest2.dropWhile isDecDigit
        if intPart = [] && fracPart = [] then none
        else
          (parseExpPart rest3).map (fun e =>
            .finite (mkDecimal sgn
              (digitsToNat intPart * 10 ^ fracPart.length + digitsToNat fracPart)
              (e - fracPart.length)))
    | _ =>
        if intPart = [] then none
        else (parseExpPart rest1).map (fun e => .finite (mkDecimal sgn (digitsToNat intPart) e))

/-- Value of a digit in radix up to 16, `none` if invalid. -/
def radixDigit (r : Nat) (c : Char) : Option Nat :=
  let v :=
    if isDecDigit c then some (c.toNat - 48)
    else if 'a' ≤ c && c ≤ 'f' then some (c.toNat - 87)
    else if 'A' ≤ c && c ≤ 'F' then some (c.toNat - 55)
    else none
  match v with
  | some d => if d < r then some d else none
  | none => none

def parseRadix (r : Nat) (cs : List Char) : Option JsNum :=
  if cs = [] then none
  else
    cs.foldl (fun acc c =>
      match acc, radixDigit r c with
      | some a, some d => some (a * r + d)
      | _, _ => none) (some 0) |>.map (fun n => .finite (mkRat n 1))

/-- JS `Number(string)`, restricted to `none` (= `NaN`) vs a value. -/
def jsParseNumber (s : String) : Option JsNum :=
  match (jsTrim s).data with
  | [] => some (.finite 0)
  | '+' :: rest => parseUnsignedJs 1 rest
  | '-' :: rest => parseUnsignedJs (-1) rest
  | '0' :: c :: rest =>
      if c = 'x' || c = 'X' then parseRadix 16 rest
      else if c = 'o' || c = 'O' then parseRadix 8 rest
      else if c = 'b' || c = 'B' then parseRadix 2 rest
      else parseUnsignedJs 1 ('0' :: c :: rest)
  | cs => parseUnsignedJs 1 cs

/-! ### JavaScript object primitives

JS objects are association lists in insertion order with unique keys.
`lookupOwn` is own-property read (`undefined` = `none`), `setOwn` is
property assignment (overwrites in place, else appends — JS key-order
semantics for string keys). -/

def lookupOwn : Row → String → Option Val
  | [], _ => none
  | (k', v) :: rest, k => if k' = k then some v else lookupOwn rest k

def setOwn : Row → String → Val → Row
  | [], k, v => [(k, v)]
  | (k', v') :: rest, k, v =>
      if k' = k then (k', v) :: rest else (k', v') :: setOwn rest k v

/-- Own enumerable keys of a row, in order (`Object.keys`). -/
def keysOf (r : Row) : List String := r.map Prod.fst

/-- JS `Object.assign(target, source)`: assigns every entry of
`source` into `target`, in order. -/
def jsAssign (target : Row) (source : Row) : Row :=
  source.foldl (fun a kv => setOwn a kv.1 kv.2) target

/-! ### `data-utils.ts` -/

/-- The worker of `flattenObject`: walks the entries in order into the
accumulated result object, recursing into plain sub-objects (arrays,
primitives and null are leaves kept as-is). -/
def flattenAux (pre : String) : Row → Row → Row
  | [], acc => acc
  | (k, v) :: rest, acc =>
      let nk := if pre = "" then k else pre ++ "." ++ k
      match v with
      | .obj fields => flattenAux pre rest (jsAssign acc (flattenAux nk fields []))
      | _ => flattenAux pre rest (setOwn acc nk v)
termination_by obj => sizeOf obj

/-- `flattenObject` of `data-utils.ts`: flattens a nested object using
dot notation. -/
def flattenObject (obj : Row) (pre : String := "") : Row :=
  flattenAux pre obj []

/-- Property names inherited by every plain object from
`Object.prototype`; `unflattenObject`'s `in` check also sees these. -/
def objectProtoKeys : List String :=
  ["constructor", "hasOwnProperty", "isPrototypeOf", "propertyIsEnumerable",
   "toLocaleString", "toString", "valueOf", "__proto__",
   "__defineGetter__", "__defineSetter__", "__lookupGetter__", "__lookupSetter__"]

/-- One entry of `unflattenObject`: walks the split key through the
result object, creating empty objects on demand.  Faithfulness notes:
the source tests each intermediate key with the JS `in` operator, which
also sees `Object.prototype` properties — in that case the walk enters
a shared builtin and the entry never reaches the result (modelled by
returning the object unchanged; the mutation of the builtin itself is
outside the JSON-value model).  When an intermediate key holds a
non-object value the source either throws a `TypeError` (strict mode
property set on a primitive) or mutates an array in ways a JSON value
cannot represent; both are modelled as `none`. -/
def insertPath : Row → List String → Val → Option Row
  | o, [k], v => some (setOwn o k v)
  | o, k :: rest@(_ :: _), v =>
      match lookupOwn o k with
      | some (.obj m) => (insertPath m rest v).map (fun m' => setOwn o k (.obj m'))
      | some _ => none
      | none =>
          if k ∈ objectProtoKeys then some o
          else (insertPath [] rest v).map (fun m' => setOwn o k (.obj m'))
  | _, [], _ => none

/-- `unflattenObject` of `data-utils.ts`: splits each flat key on "."
and rebuilds the nested structure. -/
def unflattenObject (obj : Row) : Option Row :=
  obj.foldlM (fun acc kv => insertPath acc (jsSplit kv.1 '.') kv.2) []

/-- First-appearance-ordered set of all keys over all rows (the
`Set`-based `keys` accumulation shared by `inferColumns` and
`inferSchema`). -/
def collectKeys (data : List Row) : List String :=
  data.foldl (fun a r => (keysOf r).foldl (fun a' k => if k ∈ a' then a' else a' ++ [k]) a) []

/-- Boolean code-unit-wise string comparison (the default JS
`Array.prototype.sort` comparator on strings).  Characters are
compared by code point, matching UTF-16 code-unit order on the basic
multilingual plane. -/
def strLeChars : List Char → List Char → Bool
  | [], _ => true
  | _ :: _, [] => false
  | x :: xs, y :: ys => if x < y then true else if y < x then false else strLeChars xs ys

def strLe (a b : String) : Prop := strLeChars a.data b.data = true

instance : DecidableRel strLe := fun a b =>
  inferInstanceAs (Decidable (strLeChars a.data b.data = true))

/-- `inferColumns` of `data-utils.ts`: the set of keys over all rows,
sorted alphabetically. -/
def inferColumns (data : List Row) : List String :=
  if data = [] then [] else List.insertionSort strLe (collectKeys data)

/-- The first present, non-null value of column `key` over the rows
(`data.find(row => row[key] !== null && row[key] !== undefined)?.[key]`). -/
def firstNonNull (data : List Row) (key : String) : Option Val :=
  (data.find? (fun r =>
    match lookupOwn r key with
    | some v => v ≠ Val.null
    | none => false)).bind (fun r => lookupOwn r key)

/-- The `typeof`-based classification at the heart of `inferSchema`. -/
def inferTypeOf : Option Val → ColumnType
  | some (.arr _) => .list
  | some (.obj _) => .object
  | some (.bool _) => .boolean
  | some (.num _) => .number
  | _ => .text

/-- `inferSchema` of `data-utils.ts`: classifies every discovered
column by the first present, non-null value. -/
def inferSchema (data : List Row) : List (String × ColumnType) :=
  if data = [] then []
  else (collectKeys data).map (fun k => (k, inferTypeOf (firstNonNull data k)))

/-- One segment of `parseArrayInput`: trim, then empty marker / number
/ boolean / string. -/
def classifySegment (s : String) : Val :=
  let trimmed := jsTrim s
  if trimmed = "" then .str ""
  else
    match jsParseNumber trimmed with
    | some n => .num n
    | none =>
        if jsLower trimmed = "true" then .bool true
        else if jsLower trimmed = "false" then .bool false
        else .str trimmed

/-- `parseArrayInput` of `src/lib/data-utils.ts` (the typed variant):
split on commas, trim, infer number/boolean per segment, drop
segments that ended up empty. -/
def parseArrayInput (input : String) : List Val :=
  ((jsSplit input ',').map classifySegment).filter (fun v => v ≠ Val.str "")

/-- `safeParseJSON` of `data-utils.ts`.  `JSON.parse` itself is a
platform builtin (an external collaborator in the spec's terms); its
outcome is the argument: `none` models a parse exception, `some v` a
parsed JSON value.  The function accepts exactly top-level arrays. -/
def safeParseJSON : Option Val → Option (List Val)
  | some (.arr elems) => some elems
  | _ => none

/-! ### JS `String(value)` conversion (used by `handleSort`) -/

def natToStringAux : Nat → Nat → List Char → List Char
  | 0, _, acc => acc
  | _ + 1, 0, acc => acc
  | fuel + 1, m + 1, acc =>
      natToStringAux fuel ((m + 1) / 10) (Char.ofNat (48 + (m + 1) % 10) :: acc)

def natToString (n : Nat) : String :=
  if n = 0 then "0" else ⟨natToStringAux n n []⟩

def intToString (i : Int) : String :=
  if i < 0 then "-" ++ natToString (-i).toNat else natToString i.toNat

/-- Renders a finite rational the way JS renders the corresponding
double, for rationals with a terminating decimal expansion (the only
ones that are exactly doubles); the non-terminating fallback marks
values unreachable from faithfully modelled states.  No verified
property evaluates this on a non-integer. -/
def jsNumToString : JsNum → String
  | .posInf => "Infinity"
  | .negInf => "-Infinity"
  | .finite q =>
      if q.den = 1 then intToString q.num
      else
        match (List.range 400).find? (fun m => 10 ^ m % q.den = 0) with
        | some m =>
            let scaled := (q.num.natAbs * 10 ^ m) / q.den
            let ds0 := natToString scaled
            let ds : List Char := List.replicate (m + 1 - ds0.data.length) '0' ++ ds0.data
            let ip : List Char := ds.take (ds.length - m)
            let fp : List Char := ds.drop (ds.length - m)
            (if q.num < 0 then "-" else "") ++ (⟨ip⟩ : String) ++ "." ++ (⟨fp⟩ : String)
        | none => intToString q.num ++ "/" ++ natToString q.den

def joinComma : List String → String
  | [] => ""
  | [s] => s
  | s :: rest => s ++ "," ++ joinComma rest

mutual

/-- JS `String(value)`: `Array.prototype.toString` joins the
recursively converted elements with "," (null becomes the empty
string inside a join), plain objects print "[object Object]". -/
def jsToString : Val → String
  | .null => "null"
  | .bool b => if b then "true" else "false"
  | .num n => jsNumToString n
  | .str s => s
  | .arr xs => joinComma (jsToStringElems xs)
  | .obj _ => "[object Object]"

def jsToStringElems : List Val → List String
  | [] => []
  | v :: rest =>
      (match v with
       | .null => ""
       | _ => jsToString v) :: jsToStringElems rest

end

/-! ### History manager

The `useUndoRedo` hook is referenced by `App.tsx` but its source file
is not part of the repository snapshot; the container below is
modelled from the spec (section 4.3 History Manager). -/

/-- Modelled from the spec: the history state of `useUndoRedo`
(`src/hooks/use-undo-redo`, absent from the snapshot) — bounded past,
current value, and future. -/
structure HistoryState (α : Type) where
  past : List α
  present : α
  future : List α
deriving DecidableEq, Repr

/-- Modelled from the spec: `set(next)` of `useUndoRedo` — a no-op if
`next` is deeply/structurally equal to the current value; otherwise
pushes current onto past (evicting the oldest entries beyond `limit`),
installs `next`, and clears future. -/
def setHist [DecidableEq α] (limit : Nat) (h : HistoryState α) (next : α) : HistoryState α :=
  if next = h.present then h
  else
    let newPast := h.past ++ [h.present]
    { past := newPast.drop (newPast.length - limit), present := next, future := [] }

/-- Modelled from the spec: `reset(value)` of `useUndoRedo` — replaces
current and clears both past and future. -/
def resetHist (_h : HistoryState α) (value : α) : HistoryState α :=
  { past := [], present := value, future := [] }

/-- Modelled from the spec: `undo()` of `useUndoRedo` — no-op on empty
past, else pops the last past entry into current and pushes the old
current onto the front of future. -/
def undoHist (h : HistoryState α) : HistoryState α :=
  match h.past.getLast? with
  | none => h
  | some x => ⟨h.past.dropLast, x, h.present :: h.future⟩

/-- Modelled from the spec: `redo()` of `useUndoRedo` — no-op on empty
future, else shifts the first future entry into current and pushes the
old current onto the end of past. -/
def redoHist (h : HistoryState α) : HistoryState α :=
  match h.future with
  | [] => h
  | x :: rest => ⟨h.past ++ [h.present], x, rest⟩

/-! ### `App.tsx` handlers -/

/-- The updater inside `updateCell` of `App.tsx`: the `===`
short-circuit against the existing value, else a copy of the row list
with row `i` replaced by a shallow copy carrying `v` at key `c`.
Faithfulness notes: JS `===` on the cell value is modelled by
structural equality — on primitives the two coincide, and when they
differ (distinct but structurally equal objects) the deep-equality
dedup of the history `set` downstream produces the same final history
state either way.  An out-of-range `i` makes the source throw reading
`prev[rowIdx][col]`; the embedding totalizes that case to the
unchanged list (the verified property assumes `i` in range). -/
def updateCellRows (rows : List Row) (i : Nat) (c : String) (v : Val) : List Row :=
  match rows.get? i with
  | none => rows
  | some row => if lookupOwn row c = some v then rows else rows.set i (setOwn row c v)

/-- `updateCell` of `App.tsx` composed with the history `set` it goes
through (`setData`). -/
def updateCell (limit : Nat) (h : HistoryState (List Row)) (i : Nat) (c : String) (v : Val) :
    HistoryState (List Row) :=
  setHist limit h (updateCellRows h.present i c v)

inductive SortDirection where
  | asc
  | desc
deriving DecidableEq, Repr

/-- Strict code-unit-wise string comparison (JS `<` on strings). -/
def strLtChars : List Char → List Char → Bool
  | [], [] => false
  | [], _ :: _ => true
  | _ :: _, [] => false
  | x :: xs, y :: ys => if x < y then true else if y < x then false else strLtChars xs ys

def strLtB (a b : String) : Bool := strLtChars a.data b.data

/-- The comparator of `handleSort` in `App.tsx`.  The leading `===`
test is modelled by structural equality: on primitives they coincide,
and on structurally equal objects/arrays the string branch below
yields 0 as well, so the comparator's result agrees with the source
either way. -/
def sortCompare (col : String) (dir : SortDirection) (a b : Row) : Int :=
  let valA := lookupOwn a col
  let valB := lookupOwn b col
  if valA = valB then 0
  else
    match valA, valB with
    | none, _ => 1
    | some .null, _ => 1
    | _, none => -1
    | _, some .null => -1
    | some va, some vb =>
        let strA := jsLower (jsToString va)
        let strB := jsLower (jsToString vb)
        if strLtB strA strB then (match dir with | .asc => -1 | .desc => 1)
        else if strLtB strB strA then (match dir with | .asc => 1 | .desc => -1)
        else 0

/-- Stable insertion producing the order mandated for
`Array.prototype.sort` with a consistent comparator: the inserted
element goes before the first element it does not strictly follow. -/
def insertCmp (cmp : α → α → Int) (x : α) : List α → List α
  | [] => [x]
  | y :: ys => if cmp x y > 0 then y :: insertCmp cmp x ys else x :: y :: ys

/-- Stable sort by a three-way comparator.  ECMAScript guarantees the
stable order only for consistent comparators; `sortCompare` is
consistent whenever the sorted column does not mix null values with
absent ones (for a null paired with an absent value it answers 1 in
both orders, where the engine's order is implementation-defined, and
this model fixes the insertion-sort order). -/
def sortCmp (cmp : α → α → Int) : List α → List α
  | [] => []
  | x :: xs => insertCmp cmp x (sortCmp cmp xs)

/-- The row reordering performed by `handleSort` of `App.tsx`. -/
def handleSort (col : String) (dir : SortDirection) (rows : List Row) : List Row :=
  sortCmp (sortCompare col dir) rows

/-- Application document state: history-wrapped row data plus the
parallel column list, schema and sort indicator of `App.tsx`. -/
structure AppState where
  hist : HistoryState (List Val)
  columns : List String
  schema : List (String × ColumnType)
  sortCfg : Option (String × SortDirection)
deriving DecidableEq

/-- Coarsens a parsed top-level array element to a row for the
column/schema re-inference after a successful import.  Elements that
are not objects make the original `inferColumns` either throw (null)
or enumerate index keys (strings/arrays); the verified import
property only concerns the rejection branch, which never evaluates
this. -/
def rowLike : Val → Row
  | .obj fields => fields
  | _ => []

/-- The shared logic of `handlePaste`, `handleFileUpload`,
`handleDrop` and the global paste listener in `App.tsx` (all four have
the identical validate-then-replace shape): run the parsed clipboard
or file text through `safeParseJSON`; on success reset the history to
the new rows and re-derive columns/schema, clearing the sort
indicator; otherwise surface an error (the returned flag) and leave
every component of the state untouched. -/
def importJSON (st : AppState) (p : Option Val) : AppState × Bool :=
  match safeParseJSON p with
  | some rows =>
      ({ hist := resetHist st.hist rows,
         columns := inferColumns (rows.map rowLike),
         schema := inferSchema (rows.map rowLike),
         sortCfg := none }, false)
  | none => (st, true)

/-! ### `DataTable.tsx` keyboard navigation -/

/-- The Tab branch of `handleTableKeyDown` in `DataTable.tsx` (without
Shift).  The input is the focus state (`none` = no focused cell), the
output is the new focus state and whether the handler called
`preventDefault` (suppressing the platform's focus traversal).  The
early returns of the handler (no focus, or no data) leave the state
alone without suppressing the default. -/
def navTab (rowCount colCount : Nat) (focused : Option (Nat × Nat)) :
    Option (Nat × Nat) × Bool :=
  match focused with
  | none => (none, false)
  | some (r, c) =>
      if rowCount = 0 then (some (r, c), false)
      else if c < colCount then (some (r, c + 1), true)
      else if r < rowCount - 1 then (some (r + 1, 0), true)
      else (none, false)

/-- The focus-clamping effect of `DataTable.tsx` (lines 613-619): when
the focused row index is at or beyond the new row count, refocus at
`Math.max(0, data.length - 1)` keeping the column. -/
def clampFocus (len : Nat) (f : Option (Nat × Nat)) : Option (Nat × Nat) :=
  match f with
  | none => none
  | some (r, c) => if len ≤ r then some (len - 1, c) else some (r, c)

/-! ### Claim C5 infrastructure: paths, goodness, leaves

The round-trip analysis of `flattenObject`/`unflattenObject` works
through the leaf decomposition of a nested object: every leaf value
together with its key path, in depth-first order. -/

/-- Extends a flat-key prefix by one segment, the way `flattenObject`
builds `newKey`. -/
def prefKey (pre k : String) : String :=
  if pre = "" then k else pre ++ "." ++ k

/-- Dot-joins a non-empty path. -/
def joinDots : List String → String
  | [] => ""
  | [k] => k
  | k :: rest => k ++ "." ++ joinDots rest

/-- The depth-first leaves of a nested object: (relative key path,
leaf value) pairs.  Arrays, primitives and null are leaves; plain
sub-objects are descended into. -/
def leaves : List (String × Val) → List (List String × Val)
  | [] => []
  | (k, v) :: rest =>
      (match v with
       | .obj fields => (leaves fields).map (fun pw => (k :: pw.1, pw.2))
       | _ => [([k], v)]) ++ leaves rest
termination_by l => sizeOf l

/-- A key that survives the dot-notation round trip: non-empty and
free of literal dots. -/
def goodKey (k : String) : Bool :=
  decide (k ≠ "") && !(decide ('.' ∈ k.data))

mutual

/-- Well-formedness of one object entry for the round trip: good key;
when the value is a nested object it must be non-empty (flatten drops
empty objects), its key must not collide with an `Object.prototype`
property (the `in`-based walk of `unflattenObject` would descend into
the builtin), and it must be recursively well-formed. -/
def goodEntry : String × Val → Bool
  | (k, v) =>
      goodKey k &&
      (match v with
       | .obj fields =>
           decide (fields ≠ []) && !(decide (k ∈ objectProtoKeys)) && goodFields fields
       | _ => true)

/-- Well-formedness of an object for the round trip: every entry good
and keys unique per level. -/
def goodFields : List (String × Val) → Bool
  | [] => true
  | (k, v) :: rest => goodEntry (k, v) && !(decide (k ∈ keysOf rest)) && goodFields rest

end

/-- Follows a path of keys through nested objects. -/
def getPathF (r : Row) : List String → Option Row
  | [] => some r
  | k :: rest =>
      match lookupOwn r k with
      | some (.obj m) => getPathF m rest
      | _ => none

/-- Replaces the object at the end of a path of keys (total; leaves
the row unchanged where the walk would fail). -/
def setPathF (r : Row) : List String → Row → Row
  | [], m' => m'
  | k :: rest, m' =>
      match lookupOwn r k with
      | some (.obj m) => setOwn r k (.obj (setPathF m rest m'))
      | _ => r

/-- The path entries of `leaves`, with keys joined the way
`flattenAux` builds them starting from prefix `pre`. -/
def leavesMap (pre : String) (obj : List (String × Val)) : Row :=
  (leaves obj).map (fun pw => (pw.1.foldl prefKey pre, pw.2))

/-- Folds `insertPath` over already-split path entries (the core of
`unflattenObject` once keys are split). -/
def foldPaths (entries : List (List String × Val)) (r : Row) : Option Row :=
  entries.foldlM (fun acc pv => insertPath acc pv.1 pv.2) r

/-- The flat keys an object contributes under a prefix. -/
def flatKeys (pre : String) (g : List (String × Val)) : List String :=
  (leaves g).map (fun pw => pw.1.foldl prefKey pre)

/-! ### Derived definitions and comparison definitions used by the claims -/

/-- Association-list lookup for the schema (same own-property
semantics as `lookupOwn`). -/
def lookupType : List (String × ColumnType) → String → Option ColumnType
  | [], _ => none
  | (k', t) :: rest, k => if k' = k then some t else lookupType rest k

/-- The classification of the claim text: array to list, non-array
object to object, boolean to boolean, number to number, otherwise
text. -/
def classifyVal : Val → ColumnType
  | .arr _ => .list
  | .obj _ => .object
  | .bool _ => .boolean
  | .num _ => .number
  | _ => .text

/-- A row is null-ish at a column when its value there is absent or
null (the negation of `data.find`'s predicate in `inferSchema`). -/
def nullishAt (row : Row) (c : String) : Prop :=
  ∀ w, lookupOwn row c = some w → w = Val.null

/-- Per-segment conversion as the claim words it: a number only if the
whole trimmed segment parses as a *finite* number, a boolean for
case-insensitive "true"/"false", otherwise the trimmed segment as a
string.  (Defined from the claim text, for comparison with the
source's `parseArrayInput`.) -/
def classifySegmentSpec (t : String) : Val :=
  match jsParseNumber t with
  | some (.finite q) => .num (.finite q)
  | _ =>
      if jsLower t = "true" then .bool true
      else if jsLower t = "false" then .bool false
      else .str t

/-- The claim's whole pipeline, as worded: split on commas, trim each
segment, drop segments empty after trimming, classify the rest. -/
def parseListInputSpec (input : String) : List Val :=
  (((jsSplit input ',').map jsTrim).filter (fun t => t ≠ "")).map classifySegmentSpec

/-- Per-segment conversion as the code performs it (amended claim): a
number whenever JS `Number` accepts the whole trimmed segment —
including the infinities — else boolean for case-insensitive
"true"/"false", else the trimmed string. -/
def classifySegmentAmended (t : String) : Val :=
  match jsParseNumber t with
  | some n => .num n
  | none =>
      if jsLower t = "true" then .bool true
      else if jsLower t = "false" then .bool false
      else .str t

def strLeChars_total (xs ys : List Char) :
    strLeChars xs ys = true ∨ strLeChars ys xs = true := by
  induction xs generalizing ys with
  | nil => exact Or.inl rfl
  | cons x xs ih =>
      cases ys with
      | nil => exact Or.inr rfl
      | cons y ys =>
          show (if x < y then true else if y < x then false else strLeChars xs ys) = true ∨
            (if y < x then true else if x < y then false else strLeChars ys xs) = true
          rcases lt_trichotomy x y with h | h | h
          · left
            rw [if_pos h]
          · subst h
            rcases ih ys with h' | h'
            · left
              rw [if_neg (lt_irrefl x), if_neg (lt_irrefl x)]
              exact h'
            · right
              rw [if_neg (lt_irrefl x), if_neg (lt_irrefl x)]
              exact h'
          · right
            rw [if_pos h]

def strLeChars_trans (xs ys zs : List Char)
    (h1 : strLeChars xs ys = true) (h2 : strLeChars ys zs = true) :
    strLeChars xs zs = true := by
  induction xs generalizing ys zs with
  | nil => rfl
  | cons x xs ih =>
      cases ys with
      | nil => cases h1
      | cons y ys =>
          cases zs with
          | nil => cases h2
          | cons z zs =>
              revert h1 h2
              show (if x < y then true else if y < x then false else strLeChars xs ys) = true →
                (if y < z then true else if z < y then false else strLeChars ys zs) = true →
                (if x < z then true else if z < x then false else strLeChars xs zs) = true
              intro h1 h2
              by_cases hxy : x < y
              · by_cases hyz : y < z
                · rw [if_pos (lt_trans hxy hyz)]
                · rw [if_neg hyz] at h2
                  by_cases hzy : z < y
                  · rw [if_pos hzy] at h2
                    cases h2
                  · have hyzeq : y = z := le_antisymm (not_lt.mp hzy) (not_lt.mp hyz)
                    rw [if_pos (hyzeq ▸ hxy)]
              · rw [if_neg hxy] at h1
                by_cases hyx : y < x
                · rw [if_pos hyx] at h1
                  cases h1
                · have hxyeq : x = y := le_antisymm (not_lt.mp hyx) (not_lt.mp hxy)
                  rw [if_neg hyx] at h1
                  subst hxyeq
                  by_cases hxz : x < z
                  · rw [if_pos hxz]
                  · rw [if_neg hxz] at h2 ⊢
                    by_cases hzx : z < x
                    · rw [if_pos hzx] at h2
                      cases h2
                    · rw [if_neg hzx] at h2 ⊢
                      exact ih ys zs h1 h2

def strLeChars_antisymm (xs ys : List Char)
    (h1 : strLeChars xs ys = true) (h2 : strLeChars ys xs = true) : xs = ys := by
  induction xs generalizing ys with
  | nil =>
      cases ys with
      | nil => rfl
      | cons y ys => cases h2
  | cons x xs ih =>
      cases ys with
      | nil => cases h1
      | cons y ys =>
          revert h1 h2
          show (if x < y then true else if y < x then false else strLeChars xs ys) = true →
            (if y < x then true else if x < y then false else strLeChars ys xs) = true →
            x :: xs = y :: ys
          intro h1 h2
          by_cases hxy : x < y
          · rw [if_neg (asymm hxy), if_pos hxy] at h2
            cases h2
          · by_cases hyx : y < x
            · rw [if_neg hxy, if_pos hyx] at h1
              cases h1
            · have hxyeq : x = y := le_antisymm (not_lt.mp hyx) (not_lt.mp hxy)
              rw [if_neg hxy, if_neg hyx] at h1
              rw [if_neg hyx, if_neg hxy] at h2
              rw [hxyeq, ih ys h1 h2]

def string_data_inj {a b : String} (h : a.data = b.data) : a = b := by
  cases a
  cases b
  simp only at h
  rw [h]

instance : IsTotal String strLe :=
  ⟨fun a b => by
    rcases strLeChars_total a.data b.data with h | h
    · exact Or.inl h
    · exact Or.inr h⟩

instance : IsTrans String strLe :=
  ⟨fun a b c h1 h2 => strLeChars_trans a.data b.data c.data h1 h2⟩

instance : IsAntisymm String strLe :=
  ⟨fun a b h1 h2 => string_data_inj (strLeChars_antisymm a.data b.data h1 h2)⟩

/-- The sort rank of a row at a column: `none` when the value is null
or absent, else the lowercased string rendering the comparator orders
by. -/
def keyRank (col : String) (r : Row) : Option String :=
  match lookupOwn r col with
  | none => none
  | some .null => none
  | some v => some (jsLower (jsToString v))

/-- The direction-adjusted three-way string comparison performed by
the non-null branch of the comparator. -/
def strCmpDir (dir : SortDirection) (sa sb : String) : Int :=
  if strLtB sa sb then (match dir with | .asc => -1 | .desc => 1)
  else if strLtB sb sa then (match dir with | .asc => 1 | .desc => -1)
  else 0

/-- The direction-adjusted non-strict string order the sorted
non-null rows end up in. -/
def dirLE (dir : SortDirection) (sa sb : String) : Prop :=
  match dir with
  | .asc => strLe sa sb
  | .desc => strLe sb sa

/-- The insertion-order invariant maintained by the sort: earlier row
weakly precedes later row, except that two null-ish rows are mutually
unordered (the comparator is inconsistent there). -/
def nullsLastRel (col : String) (dir : SortDirection) (a b : Row) : Prop :=
  sortCompare col dir a b ≤ 0 ∨ (keyRank col a = none ∧ keyRank col b = none)

/-- A path produced by `leaves` under a good object: non-empty, all
segments good, and headed by one of the object's keys. -/
def goodPathP (p : List String) : Prop :=
  p ≠ [] ∧ ∀ k ∈ p, k ≠ "" ∧ '.' ∉ k.data

/-! ## Claim C2: undo-then-redo round trip -/

/-- C2: for every history state whose past is non-empty (in
particular after a single prior set operation), performing `undo` and
then `redo` with no new `set` in between restores the state — in
particular it is the identity on the current document. -/
theorem undo_redo_roundtrip (h : HistoryState α) (hp : h.past ≠ []) :
    redoHist (undoHist h) = h ∧ (redoHist (undoHist h)).present = h.present := by
  have hlast : h.past.getLast? = some (h.past.getLast hp) := List.getLast?_eq_getLast h.past hp
  have hfull : redoHist (undoHist h) = h := by
    unfold undoHist
    rw [hlast]
    unfold redoHist
    simp only
    rw [List.dropLast_append_getLast hp]
  exact ⟨hfull, by rw [hfull]⟩

/-- Witness for C2 at a concrete one-step history. -/
theorem undo_redo_roundtrip_witness :
    (HistoryState.mk (α := List Row) [[]] [[("a", Val.str "x")]] []).past ≠ [] ∧
      redoHist (undoHist (HistoryState.mk (α := List Row) [[]] [[("a", Val.str "x")]] [])) =
        HistoryState.mk [[]] [[("a", Val.str "x")]] [] :=
  ⟨by decide, (undo_redo_roundtrip _ (by decide)).1⟩

/-! ## Claim C7: imports rejecting malformed or non-array input -/

/-- C7: for every import entry point (file upload, paste, drag-drop
all share this logic), if the text is malformed JSON (parse failure)
or parses to a top-level value that is not an array, the import is
rejected with a user-visible error and the document state — rows,
columns, schema, sort indicator — is left completely unchanged. -/
theorem import_rejected_leaves_state (st : AppState) (p : Option Val)
    (hp : p = none ∨ ∀ xs, p ≠ some (Val.arr xs)) :
    importJSON st p = (st, true) := by
  have hnone : safeParseJSON p = none := by
    match p with
    | none => rfl
    | some .null => rfl
    | some (.bool _) => rfl
    | some (.num _) => rfl
    | some (.str _) => rfl
    | some (.obj _) => rfl
    | some (.arr xs) =>
        rcases hp with h | h
        · exact absurd h (by simp)
        · exact absurd rfl (h xs)
  unfold importJSON
  rw [hnone]

/-- Witness for C7: a scalar JSON document and a parse failure are
both rejected without touching a sample state. -/
theorem import_rejected_leaves_state_witness :
    importJSON ⟨⟨[], [Val.str "keep"], []⟩, ["a"], [("a", ColumnType.text)], none⟩
        (some (Val.str "oops")) =
      (⟨⟨[], [Val.str "keep"], []⟩, ["a"], [("a", ColumnType.text)], none⟩, true) ∧
    importJSON ⟨⟨[], [Val.str "keep"], []⟩, ["a"], [("a", ColumnType.text)], none⟩ none =
      (⟨⟨[], [Val.str "keep"], []⟩, ["a"], [("a", ColumnType.text)], none⟩, true) :=
  ⟨import_rejected_leaves_state _ _ (Or.inr (fun _ h => by cases h)),
   import_rejected_leaves_state _ _ (Or.inl rfl)⟩

/-! ## Claim C8: Tab traversal through the flattened grid -/

/-- Unfolding equation of `navTab` on a focused cell. -/
theorem navTab_some (rowCount colCount r c : Nat) :
    navTab rowCount colCount (some (r, c)) =
      if rowCount = 0 then (some (r, c), false)
      else if c < colCount then (some (r, c + 1), true)
      else if r < rowCount - 1 then (some (r + 1, 0), true)
      else (none, false) := rfl

/-- C8: with at least one row and one column and an in-range focus,
Tab advances the focus to the successor in the flattened
`(row, col)` sequence whose last slot per row is the delete-control
slot at `col = columnCount` (suppressing the platform traversal), in
particular from `(r, lastColumnIndex)` it moves to
`(r, columnCount)` and not to the next row; stepping past the delete
slot of the last row clears the focus without suppressing the
platform's default focus traversal. -/
theorem tab_flattened_traversal (rowCount colCount r c : Nat)
    (hrow : 1 ≤ rowCount) (hcol : 1 ≤ colCount) (hr : r < rowCount) (hc : c ≤ colCount) :
    (navTab rowCount colCount (some (r, c)) =
      if r * (colCount + 1) + c + 1 < rowCount * (colCount + 1) then
        (some ((r * (colCount + 1) + c + 1) / (colCount + 1),
               (r * (colCount + 1) + c + 1) % (colCount + 1)), true)
      else (none, false)) ∧
    navTab rowCount colCount (some (r, colCount - 1)) = (some (r, colCount), true) ∧
    navTab rowCount colCount (some (r, colCount - 1)) ≠ (some (r + 1, 0), true) ∧
    navTab rowCount colCount (some (rowCount - 1, colCount)) = (none, false) := by
  have hk : 0 < colCount + 1 := Nat.succ_pos _
  refine ⟨?_, ?_, ?_, ?_⟩
  · rw [navTab_some, if_neg (by omega : ¬ rowCount = 0)]
    by_cases hlt : c < colCount
    · rw [if_pos hlt, if_pos (by nlinarith : r * (colCount + 1) + c + 1 < rowCount * (colCount + 1))]
      have hcc : c + 1 < colCount + 1 := by omega
      have hdiv : (r * (colCount + 1) + c + 1) / (colCount + 1) = r := by
        rw [Nat.mul_comm r (colCount + 1), Nat.add_assoc, Nat.mul_add_div hk,
          Nat.div_eq_of_lt hcc, Nat.add_zero]
      have hmod : (r * (colCount + 1) + c + 1) % (colCount + 1) = c + 1 := by
        rw [Nat.mul_comm r (colCount + 1), Nat.add_assoc, Nat.mul_add_mod,
          Nat.mod_eq_of_lt hcc]
      rw [hdiv, hmod]
    · have hceq : c = colCount := by omega
      rw [if_neg hlt]
      by_cases hrlast : r < rowCount - 1
      · have hcond : r * (colCount + 1) + c + 1 < rowCount * (colCount + 1) := by
          have heq : r * (colCount + 1) + c + 1 = (r + 1) * (colCount + 1) := by
            rw [hceq]; ring
          rw [heq]
          exact (Nat.mul_lt_mul_right hk).mpr (by omega)
        rw [if_pos hrlast, if_pos hcond]
        have harith : r * (colCount + 1) + c + 1 = (colCount + 1) * (r + 1) + 0 := by
          rw [hceq]; ring
        have hdiv : (r * (colCount + 1) + c + 1) / (colCount + 1) = r + 1 := by
          rw [harith, Nat.mul_add_div hk, Nat.div_eq_of_lt hk, Nat.add_zero]
        have hmod : (r * (colCount + 1) + c + 1) % (colCount + 1) = 0 := by
          rw [harith, Nat.mul_add_mod, Nat.zero_mod]
        rw [hdiv, hmod]
      · rw [if_neg hrlast,
          if_neg (by
            have hre : r = rowCount - 1 := by omega
            have h1 : r + 1 = rowCount := by omega
            have : r * (colCount + 1) + c + 1 = rowCount * (colCount + 1) := by
              calc r * (colCount + 1) + c + 1
                  = (r + 1) * (colCount + 1) := by rw [hceq]; ring
                _ = rowCount * (colCount + 1) := by rw [h1]
            omega)]
  · rw [navTab_some, if_neg (by omega : ¬ rowCount = 0),
      if_pos (by omega : colCount - 1 < colCount)]
    have h1 : colCount - 1 + 1 = colCount := by omega
    rw [h1]
  · rw [navTab_some, if_neg (by omega : ¬ rowCount = 0),
      if_pos (by omega : colCount - 1 < colCount)]
    have h1 : colCount - 1 + 1 = colCount := by omega
    rw [h1]
    simp only [ne_eq, Prod.mk.injEq, Option.some.injEq, and_true]
    intro hcontra
    omega
  · rw [navTab_some, if_neg (by omega : ¬ rowCount = 0),
      if_neg (by omega : ¬ colCount < colCount),
      if_neg (by omega : ¬ rowCount - 1 < rowCount - 1)]

/-- Witness for C8 on a 2-row, 2-column grid with focus on the last
data column of the first row. -/
theorem tab_flattened_traversal_witness :
    navTab 2 2 (some (0, 1)) =
      (if 0 * (2 + 1) + 1 + 1 < 2 * (2 + 1) then
        (some ((0 * (2 + 1) + 1 + 1) / (2 + 1), (0 * (2 + 1) + 1 + 1) % (2 + 1)), true)
      else (none, false)) ∧
    navTab 2 2 (some (0, 1)) = (some (0, 2), true) ∧
    navTab 2 2 (some (0, 1)) ≠ (some (1, 0), true) ∧
    navTab 2 2 (some (1, 2)) = (none, false) :=
  tab_flattened_traversal 2 2 0 1 (by decide) (by decide) (by decide) (by decide)

/-! ## Claim C9: focus clamping on row-count shrink -/

/-- C9 counterexample: when the row count shrinks to zero, the clamp
effect does not transition to Idle as the claim states — it refocuses
row 0 instead of clearing the focus. -/
theorem clampFocus_zero_rows_not_idle :
    clampFocus 0 (some (2, 1)) = some (0, 1) ∧ clampFocus 0 (some (2, 1)) ≠ none := by
  decide

/-- C9 (amended): a focus whose row index is at or beyond the new row
count is clamped to row `max 0 (rowCount - 1)` with its column kept;
when at least one row remains every clamped focus satisfies
`row < rowCount`, but when no rows remain the focus is set to row 0
rather than cleared to Idle. -/
theorem clampFocus_clamps (len r c : Nat) :
    clampFocus len (some (r, c)) = some (min r (len - 1), c) ∧
    (0 < len → ∃ r', clampFocus len (some (r, c)) = some (r', c) ∧ r' < len) ∧
    clampFocus 0 (some (r, c)) = some (0, c) ∧
    clampFocus len none = none := by
  have hunfold : ∀ (n a b : Nat), clampFocus n (some (a, b)) =
      if n ≤ a then some (n - 1, b) else some (a, b) := fun _ _ _ => rfl
  refine ⟨?_, ?_, ?_, rfl⟩
  · rw [hunfold]
    by_cases hle : len ≤ r
    · rw [if_pos hle]
      congr 2
      omega
    · rw [if_neg hle]
      congr 2
      omega
  · intro hlen
    rw [hunfold]
    by_cases hle : len ≤ r
    · exact ⟨len - 1, by rw [if_pos hle], by omega⟩
    · exact ⟨r, by rw [if_neg hle], by omega⟩
  · rw [hunfold, if_pos (Nat.zero_le r)]

/-- Witness for C9's amended statement at a concrete shrink. -/
theorem clampFocus_clamps_witness :
    clampFocus 2 (some (5, 1)) = some (min 5 (2 - 1), 1) ∧
    (0 < 2 → ∃ r', clampFocus 2 (some (5, 1)) = some (r', 1) ∧ r' < 2) ∧
    clampFocus 0 (some (5, 1)) = some (0, 1) ∧
    clampFocus 2 none = none :=
  clampFocus_clamps 2 5 1

/-! ## Claim C1: updateCell dedup and shallow replacement -/

/-- Reading a key after `setOwn`: the written key returns the new
value, every other key is untouched. -/
theorem lookupOwn_setOwn (row : Row) (c : String) (v : Val) (c' : String) :
    lookupOwn (setOwn row c v) c' = if c' = c then some v else lookupOwn row c' := by
  induction row with
  | nil =>
      show (if c = c' then some v else lookupOwn [] c') = _
      by_cases h : c' = c
      · rw [if_pos h, if_pos h.symm]
      · rw [if_neg h, if_neg (fun he => h he.symm)]
  | cons kv rest ih =>
      obtain ⟨k', v'⟩ := kv
      show lookupOwn (if k' = c then (k', v) :: rest else (k', v') :: setOwn rest c v) c' = _
      by_cases hk : k' = c
      · rw [if_pos hk]
        show (if k' = c' then some v else lookupOwn rest c') = _
        by_cases hc : c' = c
        · rw [if_pos (hk.trans hc.symm), if_pos hc]
        · rw [if_neg (fun he => hc (he.symm.trans hk)), if_neg hc]
          show _ = lookupOwn ((k', v') :: rest) c'
          have hk'c : ¬ k' = c' := fun he => hc (he.symm.trans hk)
          show lookupOwn rest c' = if k' = c' then some v' else lookupOwn rest c'
          rw [if_neg hk'c]
      · rw [if_neg hk]
        show (if k' = c' then some v' else lookupOwn (setOwn rest c v) c') = _
        by_cases hkc : k' = c'
        · have hc : ¬ c' = c := fun he => hk (hkc.trans he)
          rw [if_pos hkc, if_neg hc]
          show _ = lookupOwn ((k', v') :: rest) c'
          show some v' = if k' = c' then some v' else lookupOwn rest c'
          rw [if_pos hkc]
        · rw [if_neg hkc, ih]
          by_cases hc : c' = c
          · rw [if_pos hc, if_pos hc]
          · rw [if_neg hc, if_neg hc]
            show _ = lookupOwn ((k', v') :: rest) c'
            show lookupOwn rest c' = if k' = c' then some v' else lookupOwn rest c'
            rw [if_neg hkc]

/-- Unfolding of `updateCellRows` when the row exists. -/
theorem updateCellRows_some (rows : List Row) (i : Nat) (row : Row) (c : String) (v : Val)
    (hg : rows.get? i = some row) :
    updateCellRows rows i c v =
      if lookupOwn row c = some v then rows else rows.set i (setOwn row c v) := by
  unfold updateCellRows
  rw [hg]

/-- Unfolding of `setHist`. -/
theorem setHist_eq [DecidableEq α] (limit : Nat) (h : HistoryState α) (next : α) :
    setHist limit h next =
      if next = h.present then h
      else ⟨(h.past ++ [h.present]).drop ((h.past ++ [h.present]).length - limit), next, []⟩ :=
  rfl

/-- C1: with an in-range row index (and the configured positive
history depth), `updateCell` is a complete no-op — history state
unchanged, no history entry — when the new value is structurally
identical to the row's existing value at that column; otherwise it
replaces row `i` by a shallow copy carrying `v` at key `c` (all other
keys preserved), leaves all other rows unchanged, and records the
prior document as a new undo entry. -/
theorem updateCell_dedup_and_replace (limit : Nat) (h : HistoryState (List Row))
    (i : Nat) (c : String) (v : Val) (hlimit : 1 ≤ limit) (hi : i < h.present.length) :
    (lookupOwn (h.present.get ⟨i, hi⟩) c = some v → updateCell limit h i c v = h) ∧
    (lookupOwn (h.present.get ⟨i, hi⟩) c ≠ some v →
      ((updateCell limit h i c v).present)[i]? = some (setOwn (h.present.get ⟨i, hi⟩) c v) ∧
      (∀ c', lookupOwn (setOwn (h.present.get ⟨i, hi⟩) c v) c' =
        if c' = c then some v else lookupOwn (h.present.get ⟨i, hi⟩) c') ∧
      (∀ j, j ≠ i → ((updateCell limit h i c v).present)[j]? = h.present[j]?) ∧
      (updateCell limit h i c v).present.length = h.present.length ∧
      (updateCell limit h i c v).past.getLast? = some h.present ∧
      (updateCell limit h i c v).future = []) := by
  have hget : h.present.get? i = some (h.present.get ⟨i, hi⟩) := List.get?_eq_get hi
  set row := h.present.get ⟨i, hi⟩ with hrow
  constructor
  · intro heq
    unfold updateCell
    rw [updateCellRows_some _ _ _ _ _ hget, if_pos heq, setHist_eq, if_pos rfl]
  · intro hne
    have hrows : updateCellRows h.present i c v = h.present.set i (setOwn row c v) := by
      rw [updateCellRows_some _ _ _ _ _ hget, if_neg hne]
    have hpresent_ne : h.present.set i (setOwn row c v) ≠ h.present := by
      intro he
      have hcells := congrArg (fun l => l[i]?) he
      simp only at hcells
      rw [List.getElem?_set_self hi] at hcells
      have hgeti : h.present[i]? = some row := by
        rw [← hget]
        simp [List.get?_eq_getElem?]
      rw [hgeti] at hcells
      have : setOwn row c v = row := Option.some.inj hcells
      have hl := lookupOwn_setOwn row c v c
      rw [this, if_pos rfl] at hl
      exact hne hl
    have hstep : updateCell limit h i c v =
        ⟨(h.past ++ [h.present]).drop ((h.past ++ [h.present]).length - limit),
          h.present.set i (setOwn row c v), []⟩ := by
      unfold updateCell
      rw [hrows, setHist_eq, if_neg hpresent_ne]
    refine ⟨?_, fun c' => lookupOwn_setOwn row c v c', ?_, ?_, ?_, ?_⟩
    · rw [hstep]
      exact List.getElem?_set_self hi
    · intro j hj
      rw [hstep]
      exact List.getElem?_set_ne (fun he => hj he.symm)
    · rw [hstep]
      exact List.length_set _ _ _
    · rw [hstep]
      have hdle : (h.past ++ [h.present]).length - limit ≤ h.past.length := by
        rw [List.length_append, List.length_cons, List.length_nil]
        omega
      show ((h.past ++ [h.present]).drop ((h.past ++ [h.present]).length - limit)).getLast? =
        some h.present
      rw [List.drop_append_of_le_length hdle, List.getLast?_concat]
    · rw [hstep]

/-- Witness for C1 covering both the no-op branch (structurally
identical write) and the replacing branch. -/
theorem updateCell_dedup_and_replace_witness :
    (lookupOwn (([[("a", Val.str "x")], [("b", Val.bool true)]] : List Row).get ⟨0, by decide⟩)
        "a" = some (Val.str "x") →
      updateCell 100 ⟨[], [[("a", Val.str "x")], [("b", Val.bool true)]], []⟩ 0 "a"
        (Val.str "x") = ⟨[], [[("a", Val.str "x")], [("b", Val.bool true)]], []⟩) ∧
    (lookupOwn (([[("a", Val.str "x")], [("b", Val.bool true)]] : List Row).get ⟨0, by decide⟩)
        "a" ≠ some (Val.str "x") →
      ((updateCell 100 ⟨[], [[("a", Val.str "x")], [("b", Val.bool true)]], []⟩ 0 "a"
          (Val.str "x")).present)[0]? =
        some (setOwn (([[("a", Val.str "x")], [("b", Val.bool true)]] : List Row).get
          ⟨0, by decide⟩) "a" (Val.str "x")) ∧
      (∀ c', lookupOwn (setOwn (([[("a", Val.str "x")], [("b", Val.bool true)]] : List Row).get
          ⟨0, by decide⟩) "a" (Val.str "x")) c' =
        if c' = "a" then some (Val.str "x")
        else lookupOwn (([[("a", Val.str "x")], [("b", Val.bool true)]] : List Row).get
          ⟨0, by decide⟩) c') ∧
      (∀ j, j ≠ 0 →
        ((updateCell 100 ⟨[], [[("a", Val.str "x")], [("b", Val.bool true)]], []⟩ 0 "a"
            (Val.str "x")).present)[j]? =
          ([[("a", Val.str "x")], [("b", Val.bool true)]] : List Row)[j]?) ∧
      (updateCell 100 ⟨[], [[("a", Val.str "x")], [("b", Val.bool true)]], []⟩ 0 "a"
          (Val.str "x")).present.length =
        ([[("a", Val.str "x")], [("b", Val.bool true)]] : List Row).length ∧
      (updateCell 100 ⟨[], [[("a", Val.str "x")], [("b", Val.bool true)]], []⟩ 0 "a"
          (Val.str "x")).past.getLast? =
        some [[("a", Val.str "x")], [("b", Val.bool true)]] ∧
      (updateCell 100 ⟨[], [[("a", Val.str "x")], [("b", Val.bool true)]], []⟩ 0 "a"
          (Val.str "x")).future = []) :=
  updateCell_dedup_and_replace 100 ⟨[], [[("a", Val.str "x")], [("b", Val.bool true)]], []⟩
    0 "a" (Val.str "x") (by decide) (by decide)

/-! ## Claim C4: parseListInput segment classification -/

/-- C4 counterexample: on the segment "Infinity" the code produces the
non-finite number Infinity (because it tests `!isNaN(Number(s))`,
which accepts infinities) where the claim's "finite number" wording
demands the string "Infinity". -/
theorem parseArrayInput_infinity_not_finite :
    parseArrayInput "Infinity" = [Val.num .posInf] ∧
    parseListInputSpec "Infinity" = [Val.str "Infinity"] ∧
    parseArrayInput "Infinity" ≠ parseListInputSpec "Infinity" := by
  decide

/-- The code's classifier agrees with the amended per-segment
conversion after trimming, with the empty marker for whitespace-only
segments. -/
theorem classifySegment_eq (s : String) :
    classifySegment s =
      if jsTrim s = "" then Val.str "" else classifySegmentAmended (jsTrim s) := by
  unfold classifySegment classifySegmentAmended
  by_cases h : jsTrim s = ""
  · simp [h]
  · simp [h]

/-- The amended classifier never returns the empty-string marker on a
non-empty trimmed segment. -/
theorem classifySegmentAmended_ne_empty (t : String) (ht : t ≠ "") :
    classifySegmentAmended t ≠ Val.str "" := by
  unfold classifySegmentAmended
  cases hp : jsParseNumber t with
  | some n => simp
  | none =>
      by_cases h1 : jsLower t = "true"
      · simp [h1]
      · by_cases h2 : jsLower t = "false"
        · simp [h1, h2]
        · simp [h1, h2, ht]

/-- C4 (amended): `parseListInput` splits on commas, trims, drops
segments that are empty after trimming, and converts each remaining
segment to a number whenever JS `Number` accepts it (finite or
infinite), to a boolean for case-insensitive "true"/"false", and
otherwise keeps the trimmed segment as a string; in particular
`parseListInput("1, true, hello") = [1, true, "hello"]`. -/
theorem parseArrayInput_characterization (input : String) :
    parseArrayInput input =
      (((jsSplit input ',').map jsTrim).filter (fun t => t ≠ "")).map classifySegmentAmended ∧
    parseArrayInput "1, true, hello" =
      [Val.num (.finite 1), Val.bool true, Val.str "hello"] := by
  constructor
  · unfold parseArrayInput
    induction jsSplit input ',' with
    | nil => rfl
    | cons s segs ih =>
        simp only [List.map_cons, List.filter_cons]
        rw [classifySegment_eq s]
        by_cases h : jsTrim s = ""
        · rw [if_pos h]
          simp only [h]
          have h1 : (decide (Val.str "" ≠ Val.str "")) = false := by decide
          have h2 : (decide (("" : String) ≠ "")) = false := by decide
          rw [h1, h2]
          exact ih
        · rw [if_neg h]
          have h1 : (decide (classifySegmentAmended (jsTrim s) ≠ Val.str "")) = true := by
            simp [classifySegmentAmended_ne_empty (jsTrim s) h]
          have h2 : (decide (jsTrim s ≠ "")) = true := by simp [h]
          rw [h1, h2]
          simp only [if_true, List.map_cons]
          rw [ih]
  · decide

end S2P

namespace S2P

/-! ## Claim C3: schema inference by first non-null value -/

/-- Membership in the inner key-accumulating fold. -/
theorem mem_keysFold (ks : List String) (a : List String) (k : String) :
    k ∈ ks.foldl (fun a' k' => if k' ∈ a' then a' else a' ++ [k']) a ↔ k ∈ a ∨ k ∈ ks := by
  induction ks generalizing a with
  | nil => simp
  | cons x xs ih =>
      simp only [List.foldl_cons, ih, List.mem_cons]
      by_cases hx : x ∈ a
      · rw [if_pos hx]
        constructor
        · rintro (h | h)
          · exact Or.inl h
          · exact Or.inr (Or.inr h)
        · rintro (h | h | h)
          · exact Or.inl h
          · exact Or.inl (h ▸ hx)
          · exact Or.inr h
      · rw [if_neg hx]
        simp only [List.mem_append, List.mem_singleton]
        constructor
        · rintro ((h | h) | h)
          · exact Or.inl h
          · exact Or.inr (Or.inl h)
          · exact Or.inr (Or.inr h)
        · rintro (h | h | h)
          · exact Or.inl (Or.inl h)
          · exact Or.inl (Or.inr h)
          · exact Or.inr h

/-- A key is collected exactly when it appears in some row. -/
theorem mem_collectKeys (data : List Row) (k : String) :
    k ∈ collectKeys data ↔ ∃ row ∈ data, k ∈ keysOf row := by
  unfold collectKeys
  suffices hgen : ∀ a : List String,
      k ∈ data.foldl (fun a' r =>
        (keysOf r).foldl (fun a'' k' => if k' ∈ a'' then a'' else a'' ++ [k']) a') a ↔
      k ∈ a ∨ ∃ row ∈ data, k ∈ keysOf row by
    rw [hgen []]
    simp
  intro a
  induction data generalizing a with
  | nil => simp
  | cons r rest ih =>
      simp only [List.foldl_cons, ih, mem_keysFold, List.mem_cons]
      constructor
      · rintro ((h | h) | ⟨row, hrow, hk⟩)
        · exact Or.inl h
        · exact Or.inr ⟨r, Or.inl rfl, h⟩
        · exact Or.inr ⟨row, Or.inr hrow, hk⟩
      · rintro (h | ⟨row, hrow | hrow, hk⟩)
        · exact Or.inl (Or.inl h)
        · exact Or.inl (Or.inr (hrow ▸ hk))
        · exact Or.inr ⟨row, hrow, hk⟩

/-- Looking a present key up in the memberwise-mapped schema list. -/
theorem lookupType_map_mem (ks : List String) (f : String → ColumnType) (c : String)
    (hc : c ∈ ks) :
    lookupType (ks.map (fun k => (k, f k))) c = some (f c) := by
  induction ks with
  | nil => cases hc
  | cons x xs ih =>
      show (if x = c then some (f x) else lookupType (xs.map fun k => (k, f k)) c) = _
      by_cases hx : x = c
      · rw [if_pos hx, hx]
      · rw [if_neg hx]
        exact ih (by
          rcases List.mem_cons.mp hc with h | h
          · exact absurd h.symm hx
          · exact h)

/-- `firstNonNull` returns the value of the first row that is not
null-ish at the column. -/
theorem firstNonNull_eq_of_first (data : List Row) (c : String) (j : Nat) (row : Row) (v : Val)
    (hj : data.get? j = some row) (hv : lookupOwn row c = some v) (hvn : v ≠ Val.null)
    (hbefore : ∀ i, i < j → ∀ r', data.get? i = some r' → nullishAt r' c) :
    firstNonNull data c = some v := by
  induction data generalizing j with
  | nil => cases hj
  | cons r rest ih =>
      match j with
      | 0 =>
          have hr : r = row := by
            have : some r = some row := hj
            exact Option.some.inj this
          subst hr
          unfold firstNonNull
          rw [List.find?_cons_of_pos _ (by simp [hv, hvn])]
          simpa using hv
      | j' + 1 =>
          have hr0 : nullishAt r c := hbefore 0 (Nat.succ_pos _) r rfl
          unfold firstNonNull
          rw [List.find?_cons_of_neg _ (by
            cases hw : lookupOwn r c with
            | none => simp [hw]
            | some w => simp [hw, hr0 w hw])]
          exact ih j' hj (fun i hi r' hr' => hbefore (i + 1) (by omega) r' hr')

/-- When every row is null-ish at the column, `firstNonNull` finds
nothing. -/
theorem firstNonNull_eq_none (data : List Row) (c : String)
    (hall : ∀ row ∈ data, nullishAt row c) :
    firstNonNull data c = none := by
  induction data with
  | nil => rfl
  | cons r rest ih =>
      have hr : nullishAt r c := hall r (List.mem_cons_self _ _)
      unfold firstNonNull
      rw [List.find?_cons_of_neg _ (by
        cases hw : lookupOwn r c with
        | none => simp [hw]
        | some w => simp [hw, hr w hw])]
      exact ih (fun row hrow => hall row (List.mem_cons_of_mem _ hrow))

/-- C3: for every column appearing in some row, `inferSchema` assigns
the classification (array to list, object to object, boolean to
boolean, number to number, else text) of the value in the first row
where the column is present and non-null; if every row is absent or
null there, the column gets text; and
`inferSchema [{a: null}, {a: [1, 2]}] = {a: list}`. -/
theorem inferSchema_first_non_null (data : List Row) (c : String)
    (hmem : ∃ row ∈ data, c ∈ keysOf row) :
    (∀ j row v, data.get? j = some row → lookupOwn row c = some v → v ≠ Val.null →
      (∀ i, i < j → ∀ r', data.get? i = some r' → nullishAt r' c) →
      lookupType (inferSchema data) c = some (classifyVal v)) ∧
    ((∀ row ∈ data, nullishAt row c) →
      lookupType (inferSchema data) c = some ColumnType.text) ∧
    inferSchema [[("a", Val.null)],
        [("a", Val.arr [Val.num (.finite 1), Val.num (.finite 2)])]] =
      [("a", ColumnType.list)] := by
  have hdata : data ≠ [] := by
    rcases hmem with ⟨row, hrow, _⟩
    exact List.ne_nil_of_mem hrow
  have hck : c ∈ collectKeys data := (mem_collectKeys data c).mpr hmem
  have hschema : lookupType (inferSchema data) c =
      some (inferTypeOf (firstNonNull data c)) := by
    unfold inferSchema
    rw [if_neg hdata]
    exact lookupType_map_mem _ _ _ hck
  refine ⟨?_, ?_, by decide⟩
  · intro j row v hj hv hvn hbefore
    rw [hschema, firstNonNull_eq_of_first data c j row v hj hv hvn hbefore]
    cases v with
    | null => exact absurd rfl hvn
    | bool _ => rfl
    | num _ => rfl
    | str _ => rfl
    | arr _ => rfl
    | obj _ => rfl
  · intro hall
    rw [hschema, firstNonNull_eq_none data c hall]
    rfl

/-! ## Claim C10: inferColumns is the sorted key union -/

theorem nodup_keysFold (ks : List String) (a : List String) (ha : a.Nodup) :
    (ks.foldl (fun a' k' => if k' ∈ a' then a' else a' ++ [k']) a).Nodup := by
  induction ks generalizing a with
  | nil => exact ha
  | cons x xs ih =>
      simp only [List.foldl_cons]
      by_cases hx : x ∈ a
      · rw [if_pos hx]
        exact ih a ha
      · rw [if_neg hx]
        refine ih _ (List.nodup_append.mpr ⟨ha, List.nodup_singleton x, ?_⟩)
        intro k hk
        simp only [List.mem_singleton]
        intro he
        exact hx (he ▸ hk)

theorem nodup_collectKeys (data : List Row) : (collectKeys data).Nodup := by
  unfold collectKeys
  suffices hgen : ∀ a : List String, a.Nodup →
      (data.foldl (fun a' r =>
        (keysOf r).foldl (fun a'' k' => if k' ∈ a'' then a'' else a'' ++ [k']) a') a).Nodup from
    hgen [] List.nodup_nil
  intro a ha
  induction data generalizing a with
  | nil => exact ha
  | cons r rest ih =>
      simp only [List.foldl_cons]
      exact ih _ (nodup_keysFold (keysOf r) a ha)

/-- `inferColumns` is the sort of the collected keys even on the empty
list (both sides are then empty). -/
theorem inferColumns_eq_sort (data : List Row) :
    inferColumns data = List.insertionSort strLe (collectKeys data) := by
  unfold inferColumns
  by_cases h : data = []
  · rw [if_pos h, h]
    rfl
  · rw [if_neg h]

/-- C10: `inferColumns` returns exactly the union of the key sets of
all rows, without duplicates, strictly ascending in the code-unit
string order (JS default sort); consequently the column order after
an import depends only on which keys occur, not on the key order
inside the imported rows. -/
theorem inferColumns_sorted_union (data : List Row) :
    (inferColumns data).Nodup ∧
    List.Sorted strLe (inferColumns data) ∧
    List.Pairwise (fun a b => strLe a b ∧ a ≠ b) (inferColumns data) ∧
    (∀ k, k ∈ inferColumns data ↔ ∃ row ∈ data, k ∈ keysOf row) ∧
    (∀ data' : List Row,
      (∀ k, (∃ row ∈ data, k ∈ keysOf row) ↔ (∃ row ∈ data', k ∈ keysOf row)) →
      inferColumns data = inferColumns data') := by
  have hperm : ∀ d : List Row,
      (List.insertionSort strLe (collectKeys d)).Perm (collectKeys d) :=
    fun d => List.perm_insertionSort strLe (collectKeys d)
  have hnodup : ∀ d : List Row, (inferColumns d).Nodup := fun d => by
    rw [inferColumns_eq_sort]
    exact ((hperm d).nodup_iff).mpr (nodup_collectKeys d)
  have hsorted : ∀ d : List Row, List.Sorted strLe (inferColumns d) := fun d => by
    rw [inferColumns_eq_sort]
    exact List.sorted_insertionSort strLe (collectKeys d)
  have hmem : ∀ (d : List Row) (k : String),
      k ∈ inferColumns d ↔ ∃ row ∈ d, k ∈ keysOf row := fun d k => by
    rw [inferColumns_eq_sort, (hperm d).mem_iff]
    exact mem_collectKeys d k
  refine ⟨hnodup data, hsorted data, ?_, hmem data, ?_⟩
  · have h1 : List.Pairwise (· ≠ ·) (inferColumns data) := hnodup data
    have h2 : List.Pairwise strLe (inferColumns data) := hsorted data
    exact (h2.and h1).imp (fun h => ⟨h.1, h.2⟩)
  · intro data' hiff
    have hperm2 : (inferColumns data).Perm (inferColumns data') := by
      rw [List.perm_ext_iff_of_nodup (hnodup data) (hnodup data')]
      intro k
      rw [hmem data k, hmem data' k]
      exact hiff k
    exact List.eq_of_perm_of_sorted hperm2 (hsorted data) (hsorted data')

/-- Witness for C10: two imports with the same key set in different
row and key order get the same column list. -/
theorem inferColumns_sorted_union_witness :
    inferColumns [[("b", Val.null)], [("a", Val.bool true)]] =
      inferColumns [[("a", Val.bool true)], [("b", Val.null)]] :=
  (inferColumns_sorted_union [[("b", Val.null)], [("a", Val.bool true)]]).2.2.2.2
    [[("a", Val.bool true)], [("b", Val.null)]]
    (by
      intro k
      constructor
      · rintro ⟨row, hrow, hk⟩
        rcases List.mem_cons.mp hrow with h | h
        · exact ⟨row, by rw [h]; exact List.mem_cons_of_mem _ (List.mem_cons_self _ _), hk⟩
        · rcases List.mem_cons.mp h with h' | h'
          · exact ⟨row, by rw [h']; exact List.mem_cons_self _ _, hk⟩
          · cases h'
      · rintro ⟨row, hrow, hk⟩
        rcases List.mem_cons.mp hrow with h | h
        · exact ⟨row, by rw [h]; exact List.mem_cons_of_mem _ (List.mem_cons_self _ _), hk⟩
        · rcases List.mem_cons.mp h with h' | h'
          · exact ⟨row, by rw [h']; exact List.mem_cons_self _ _, hk⟩
          · cases h')

/-! ## Claim C6: handleSort is a stable null-last sort -/

theorem strLtChars_irrefl (xs : List Char) : strLtChars xs xs = false := by
  induction xs with
  | nil => rfl
  | cons x l ih =>
      show (if x < x then true else if x < x then false else strLtChars l l) = false
      rw [if_neg (lt_irrefl x), if_neg (lt_irrefl x)]
      exact ih

/-- Strict and non-strict code-unit comparisons are dual. -/
theorem strLtChars_eq_not_strLeChars (xs ys : List Char) :
    strLtChars xs ys = !strLeChars ys xs := by
  induction xs generalizing ys with
  | nil =>
      cases ys with
      | nil => rfl
      | cons y ys => rfl
  | cons x l ih =>
      cases ys with
      | nil => rfl
      | cons y ys =>
          show (if x < y then true else if y < x then false else strLtChars l ys) =
            !(if y < x then true else if x < y then false else strLeChars ys l)
          by_cases hxy : x < y
          · rw [if_pos hxy, if_neg (asymm hxy), if_pos hxy]
            rfl
          · by_cases hyx : y < x
            · rw [if_neg hxy, if_pos hyx, if_pos hyx]
              rfl
            · rw [if_neg hxy, if_neg hyx, if_neg hyx, if_neg hxy]
              exact ih ys

/-- Complete sign characterization of the `handleSort` comparator in
terms of the ranks: null-ish always sorts after non-null (1 / -1),
two null-ish rows compare 0 or 1 (0 exactly when the two cell reads
are identical — the comparator is inconsistent on a null paired with
an absent cell), and two non-null rows compare by the
direction-adjusted lowercased strings. -/
theorem sortCompare_eq (col : String) (dir : SortDirection) (a b : Row) :
    sortCompare col dir a b =
      match keyRank col a, keyRank col b with
      | none, none => if lookupOwn a col = lookupOwn b col then 0 else 1
      | none, some _ => 1
      | some _, none => -1
      | some sa, some sb => strCmpDir dir sa sb := by
  unfold sortCompare keyRank strCmpDir
  cases hla : lookupOwn a col with
  | none =>
      cases hlb : lookupOwn b col with
      | none => simp
      | some vb => cases vb <;> simp
  | some va =>
      cases hlb : lookupOwn b col with
      | none => cases va <;> simp
      | some vb =>
          cases va with
          | null => cases vb <;> simp
          | bool x =>
              cases vb with
              | null => simp
              | bool y =>
                  by_cases hxy : x = y
                  · subst hxy
                    simp [strLtB, strLtChars_irrefl]
                  · simp [hxy]
              | num _ => simp
              | str _ => simp
              | arr _ => simp
              | obj _ => simp
          | num x =>
              cases vb with
              | null => simp
              | bool _ => simp
              | num y =>
                  by_cases hxy : x = y
                  · subst hxy
                    simp [strLtB, strLtChars_irrefl]
                  · simp [hxy]
              | str _ => simp
              | arr _ => simp
              | obj _ => simp
          | str x =>
              cases vb with
              | null => simp
              | bool _ => simp
              | num _ => simp
              | str y =>
                  by_cases hxy : x = y
                  · subst hxy
                    simp [strLtB, strLtChars_irrefl]
                  · simp [hxy]
              | arr _ => simp
              | obj _ => simp
          | arr x =>
              cases vb with
              | null => simp
              | bool _ => simp
              | num _ => simp
              | str _ => simp
              | arr y =>
                  by_cases hxy : x = y
                  · subst hxy
                    simp [strLtB, strLtChars_irrefl]
                  · simp [hxy]
              | obj _ => simp
          | obj x =>
              cases vb with
              | null => simp
              | bool _ => simp
              | num _ => simp
              | str _ => simp
              | arr _ => simp
              | obj y =>
                  by_cases hxy : x = y
                  · subst hxy
                    simp [strLtB, strLtChars_irrefl]
                  · simp [hxy]

theorem strLeChars_of_strLtChars {xs ys : List Char} (h : strLtChars xs ys = true) :
    strLeChars xs ys = true := by
  rcases strLeChars_total xs ys with h' | h'
  · exact h'
  · have hd := strLtChars_eq_not_strLeChars xs ys
    rw [h, h'] at hd
    cases hd

theorem strLeChars_of_not_strLtChars {xs ys : List Char} (h : strLtChars xs ys ≠ true) :
    strLeChars ys xs = true := by
  have hd := strLtChars_eq_not_strLeChars xs ys
  cases hxs : strLtChars xs ys
  · rw [hxs] at hd
    cases hys : strLeChars ys xs
    · rw [hys] at hd
      cases hd
    · rfl
  · exact absurd hxs h

theorem not_strLeChars_of_strLtChars {xs ys : List Char} (h : strLtChars xs ys = true) :
    strLeChars ys xs = false := by
  have hd := strLtChars_eq_not_strLeChars xs ys
  rw [h] at hd
  cases hys : strLeChars ys xs
  · rfl
  · rw [hys] at hd
    cases hd

theorem strCmpDir_asc (sa sb : String) :
    strCmpDir .asc sa sb =
      if strLtB sa sb then -1 else if strLtB sb sa then 1 else 0 := rfl

theorem strCmpDir_desc (sa sb : String) :
    strCmpDir .desc sa sb =
      if strLtB sa sb then 1 else if strLtB sb sa then -1 else 0 := rfl

theorem strCmpDir_nonpos (dir : SortDirection) (sa sb : String) :
    strCmpDir dir sa sb ≤ 0 ↔ dirLE dir sa sb := by
  cases dir with
  | asc =>
      rw [strCmpDir_asc]
      show _ ↔ strLeChars sa.data sb.data = true
      by_cases h1 : strLtB sa sb = true
      · rw [if_pos h1]
        have hle := strLeChars_of_strLtChars h1
        simp only [hle]
        constructor
        · intro _; trivial
        · intro _; omega
      · rw [if_neg h1]
        by_cases h2 : strLtB sb sa = true
        · rw [if_pos h2]
          have hnle := not_strLeChars_of_strLtChars h2
          simp only [hnle]
          constructor
          · intro hc; omega
          · intro hc; cases hc
        · rw [if_neg h2]
          have hle := strLeChars_of_not_strLtChars h2
          simp only [hle]
          constructor
          · intro _; trivial
          · intro _; omega
  | desc =>
      rw [strCmpDir_desc]
      show _ ↔ strLeChars sb.data sa.data = true
      by_cases h1 : strLtB sa sb = true
      · rw [if_pos h1]
        have hnle := not_strLeChars_of_strLtChars h1
        simp only [hnle]
        constructor
        · intro hc; omega
        · intro hc; cases hc
      · rw [if_neg h1]
        by_cases h2 : strLtB sb sa = true
        · rw [if_pos h2]
          have hle := strLeChars_of_strLtChars h2
          simp only [hle]
          constructor
          · intro _; trivial
          · intro _; omega
        · rw [if_neg h2]
          have hle := strLeChars_of_not_strLtChars h1
          simp only [hle]
          constructor
          · intro _; trivial
          · intro _; omega

theorem dirLE_trans {dir : SortDirection} {sa sb sc : String}
    (h1 : dirLE dir sa sb) (h2 : dirLE dir sb sc) : dirLE dir sa sc := by
  cases dir with
  | asc => exact strLeChars_trans _ _ _ h1 h2
  | desc => exact strLeChars_trans _ _ _ h2 h1

theorem strCmpDir_pos_flip (dir : SortDirection) (sa sb : String)
    (h : strCmpDir dir sa sb > 0) : strCmpDir dir sb sa ≤ 0 := by
  cases dir with
  | asc =>
      rw [strCmpDir_asc] at h ⊢
      by_cases h1 : strLtB sa sb = true
      · rw [if_pos h1] at h
        omega
      · rw [if_neg h1] at h
        by_cases h2 : strLtB sb sa = true
        · rw [if_pos h2]
          omega
        · rw [if_neg h2] at h
          omega
  | desc =>
      rw [strCmpDir_desc] at h ⊢
      by_cases h1 : strLtB sa sb = true
      · rw [if_pos h1] at h
        by_cases h2 : strLtB sb sa = true
        · exfalso
          have ha := not_strLeChars_of_strLtChars h1
          have hb := strLeChars_of_strLtChars h2
          rw [ha] at hb
          cases hb
        · rw [if_neg h2, if_pos h1]
          omega
      · rw [if_neg h1] at h
        by_cases h2 : strLtB sb sa = true
        · rw [if_pos h2] at h
          omega
        · rw [if_neg h2] at h
          omega

theorem nullsLastRel_stop {col : String} {dir : SortDirection} {a b : Row}
    (h : ¬ sortCompare col dir a b > 0) : nullsLastRel col dir a b :=
  Or.inl (not_lt.mp h)

theorem nullsLastRel_flip {col : String} {dir : SortDirection} {a b : Row}
    (h : sortCompare col dir a b > 0) : nullsLastRel col dir b a := by
  have hab := sortCompare_eq col dir a b
  have hba := sortCompare_eq col dir b a
  unfold nullsLastRel
  cases hka : keyRank col a with
  | none =>
      cases hkb : keyRank col b with
      | none => exact Or.inr ⟨hkb.symm ▸ rfl, hka.symm ▸ rfl⟩
      | some sb =>
          rw [hka, hkb] at hba
          have hba' : sortCompare col dir b a = -1 := hba
          exact Or.inl (by rw [hba']; decide)
  | some sa =>
      cases hkb : keyRank col b with
      | none =>
          rw [hka, hkb] at hab
          have hab' : sortCompare col dir a b = -1 := hab
          rw [hab'] at h
          omega
      | some sb =>
          rw [hka, hkb] at hab hba
          have hab' : sortCompare col dir a b = strCmpDir dir sa sb := hab
          have hba' : sortCompare col dir b a = strCmpDir dir sb sa := hba
          rw [hab'] at h
          rw [hba']
          exact Or.inl (strCmpDir_pos_flip dir sa sb h)

theorem nullsLastRel_trans {col : String} {dir : SortDirection} {a b c : Row}
    (h1 : nullsLastRel col dir a b) (h2 : nullsLastRel col dir b c) :
    nullsLastRel col dir a c := by
  unfold nullsLastRel at h1 h2 ⊢
  cases hka : keyRank col a with
  | none =>
      cases hkb : keyRank col b with
      | none =>
          cases hkc : keyRank col c with
          | none => exact Or.inr ⟨rfl, rfl⟩
          | some sc =>
              exfalso
              rcases h2 with h2 | ⟨_, h2c⟩
              · have hbc := sortCompare_eq col dir b c
                rw [hkb, hkc] at hbc
                have hbc' : sortCompare col dir b c = 1 := hbc
                rw [hbc'] at h2
                omega
              · rw [hkc] at h2c
                cases h2c
      | some sb =>
          exfalso
          rcases h1 with h1 | ⟨_, h1b⟩
          · have habq := sortCompare_eq col dir a b
            rw [hka, hkb] at habq
            have hab' : sortCompare col dir a b = 1 := habq
            rw [hab'] at h1
            omega
          · rw [hkb] at h1b
            cases h1b
  | some sa =>
      cases hkc : keyRank col c with
      | none =>
          have hacq := sortCompare_eq col dir a c
          rw [hka, hkc] at hacq
          have hac' : sortCompare col dir a c = -1 := hacq
          exact Or.inl (by rw [hac']; decide)
      | some sc =>
          cases hkb : keyRank col b with
          | none =>
              exfalso
              rcases h2 with h2 | ⟨_, h2c⟩
              · have hbcq := sortCompare_eq col dir b c
                rw [hkb, hkc] at hbcq
                have hbc' : sortCompare col dir b c = 1 := hbcq
                rw [hbc'] at h2
                omega
              · rw [hkc] at h2c
                cases h2c
          | some sb =>
              rcases h1 with h1 | ⟨h1a, _⟩
              · rcases h2 with h2 | ⟨h2b, _⟩
                · have habq := sortCompare_eq col dir a b
                  have hbcq := sortCompare_eq col dir b c
                  have hacq := sortCompare_eq col dir a c
                  rw [hka, hkb] at habq
                  rw [hkb, hkc] at hbcq
                  rw [hka, hkc] at hacq
                  have hab' : sortCompare col dir a b = strCmpDir dir sa sb := habq
                  have hbc' : sortCompare col dir b c = strCmpDir dir sb sc := hbcq
                  have hac' : sortCompare col dir a c = strCmpDir dir sa sc := hacq
                  rw [hab'] at h1
                  rw [hbc'] at h2
                  refine Or.inl ?_
                  rw [hac', strCmpDir_nonpos]
                  exact dirLE_trans ((strCmpDir_nonpos dir sa sb).mp h1)
                    ((strCmpDir_nonpos dir sb sc).mp h2)
                · rw [hkb] at h2b
                  cases h2b
              · rw [hka] at h1a
                cases h1a

/-- Inserting permutes. -/
theorem perm_insertCmp (cmp : α → α → Int) (x : α) (l : List α) :
    (insertCmp cmp x l).Perm (x :: l) := by
  induction l with
  | nil => exact List.Perm.refl _
  | cons y ys ih =>
      show (if cmp x y > 0 then y :: insertCmp cmp x ys else x :: y :: ys).Perm (x :: y :: ys)
      by_cases h : cmp x y > 0
      · rw [if_pos h]
        exact ((ih.cons y).trans (List.Perm.swap x y ys))
      · rw [if_neg h]

theorem perm_sortCmp (cmp : α → α → Int) (l : List α) : (sortCmp cmp l).Perm l := by
  induction l with
  | nil => exact List.Perm.refl _
  | cons x xs ih =>
      show (insertCmp cmp x (sortCmp cmp xs)).Perm (x :: xs)
      exact (perm_insertCmp cmp x (sortCmp cmp xs)).trans (ih.cons x)

theorem mem_insertCmp {cmp : α → α → Int} {x a : α} {l : List α} :
    a ∈ insertCmp cmp x l ↔ a = x ∨ a ∈ l := by
  rw [(perm_insertCmp cmp x l).mem_iff, List.mem_cons]

/-- Pairwise preservation of the insertion step: the inserted element
follows everything it strictly follows by the comparator and precedes
(transitively) everything from the stop point on. -/
theorem pairwise_insertCmp (R : α → α → Prop) (cmp : α → α → Int) (x : α) (l : List α)
    (hflip : ∀ y, cmp x y > 0 → R y x)
    (hstop : ∀ z, ¬ cmp x z > 0 → R x z)
    (htrans : ∀ {u v w}, R u v → R v w → R u w)
    (hl : List.Pairwise R l) : List.Pairwise R (insertCmp cmp x l) := by
  induction l with
  | nil => exact List.pairwise_singleton R x
  | cons y ys ih =>
      rcases List.pairwise_cons.mp hl with ⟨hy, hys⟩
      show List.Pairwise R (if cmp x y > 0 then y :: insertCmp cmp x ys else x :: y :: ys)
      by_cases h : cmp x y > 0
      · rw [if_pos h]
        refine List.pairwise_cons.mpr ⟨?_, ih hys⟩
        intro w hw
        rcases mem_insertCmp.mp hw with hw | hw
        · exact hw ▸ hflip y h
        · exact hy w hw
      · rw [if_neg h]
        refine List.pairwise_cons.mpr ⟨?_, hl⟩
        intro w hw
        rcases List.mem_cons.mp hw with hw | hw
        · exact hw ▸ hstop y h
        · exact htrans (hstop y h) (hy w hw)

theorem pairwise_sortCmp (R : α → α → Prop) (cmp : α → α → Int)
    (hflip : ∀ x y, cmp x y > 0 → R y x)
    (hstop : ∀ x z, ¬ cmp x z > 0 → R x z)
    (htrans : ∀ {u v w}, R u v → R v w → R u w)
    (l : List α) : List.Pairwise R (sortCmp cmp l) := by
  induction l with
  | nil => exact List.Pairwise.nil
  | cons x xs ih =>
      exact pairwise_insertCmp R cmp x (sortCmp cmp xs)
        (fun y => hflip x y) (fun z => hstop x z) (fun h1 h2 => htrans h1 h2) ih

/-- Filtering through an insertion whose element satisfies the
predicate and never strictly follows a matching element: the element
lands in front of the matching sublist. -/
theorem filter_insertCmp_pos (cmp : α → α → Int) (p : α → Bool) (x : α) (l : List α)
    (hx : p x = true) (hstop2 : ∀ y, p y = true → ¬ cmp x y > 0) :
    (insertCmp cmp x l).filter p = x :: l.filter p := by
  induction l with
  | nil => simp [insertCmp, hx]
  | cons y ys ih =>
      show (if cmp x y > 0 then y :: insertCmp cmp x ys else x :: y :: ys).filter p = _
      by_cases h : cmp x y > 0
      · rw [if_pos h]
        have hpy : p y = false := by
          cases hpy : p y
          · rfl
          · exact absurd h (hstop2 y hpy)
        rw [List.filter_cons_of_neg (by rw [hpy]; exact fun hc => by cases hc), ih,
          List.filter_cons_of_neg (by rw [hpy]; exact fun hc => by cases hc)]
      · rw [if_neg h]
        rw [List.filter_cons_of_pos (by rw [hx])]

/-- Filtering through an insertion whose element fails the predicate
leaves the filtered list unchanged. -/
theorem filter_insertCmp_neg (cmp : α → α → Int) (p : α → Bool) (x : α) (l : List α)
    (hx : p x = false) :
    (insertCmp cmp x l).filter p = l.filter p := by
  induction l with
  | nil => simp [insertCmp, hx]
  | cons y ys ih =>
      show (if cmp x y > 0 then y :: insertCmp cmp x ys else x :: y :: ys).filter p = _
      by_cases h : cmp x y > 0
      · rw [if_pos h]
        cases hpy : p y
        · rw [List.filter_cons_of_neg (by rw [hpy]; exact fun hc => by cases hc), ih,
            List.filter_cons_of_neg (by rw [hpy]; exact fun hc => by cases hc)]
        · rw [List.filter_cons_of_pos (by rw [hpy]), ih,
            List.filter_cons_of_pos (by rw [hpy])]
      · rw [if_neg h]
        rw [List.filter_cons_of_neg (by rw [hx]; exact fun hc => by cases hc)]

/-- The sort is stable on every class of mutually unordered matching
elements. -/
theorem filter_sortCmp (cmp : α → α → Int) (p : α → Bool)
    (hcompat : ∀ x y, p x = true → p y = true → ¬ cmp x y > 0) (l : List α) :
    (sortCmp cmp l).filter p = l.filter p := by
  induction l with
  | nil => rfl
  | cons x xs ih =>
      show (insertCmp cmp x (sortCmp cmp xs)).filter p = _
      cases hx : p x
      · rw [filter_insertCmp_neg cmp p x _ hx, ih,
          List.filter_cons_of_neg (by rw [hx]; exact fun hc => by cases hc)]
      · rw [filter_insertCmp_pos cmp p x _ hx (fun y hy => hcompat x y hx hy), ih,
          List.filter_cons_of_pos (by rw [hx])]

theorem strLtB_irrefl (s : String) : strLtB s s = false := strLtChars_irrefl s.data

theorem strCmpDir_self (dir : SortDirection) (s : String) : strCmpDir dir s s = 0 := by
  cases dir with
  | asc =>
      rw [strCmpDir_asc, if_neg (by rw [strLtB_irrefl]; exact fun hc => by cases hc),
        if_neg (by rw [strLtB_irrefl]; exact fun hc => by cases hc)]
  | desc =>
      rw [strCmpDir_desc, if_neg (by rw [strLtB_irrefl]; exact fun hc => by cases hc),
        if_neg (by rw [strLtB_irrefl]; exact fun hc => by cases hc)]

/-- C6: for every row list, column and direction, `handleSort` is a
permutation of the rows in which no row whose value at the column is
null or absent precedes a row with a present non-null value (nulls
last regardless of direction), the non-null rows appear in the
direction-adjusted order of their lowercased string renderings, and
rows with equal sort strings retain their relative order (stability);
in particular sorting `[{n:"b"},{n:null},{n:"a"}]` ascending by `n`
yields the order `["a","b",null]` and descending `["b","a",null]`. -/
theorem handleSort_stable_nulls_last (col : String) (dir : SortDirection) (rows : List Row) :
    (handleSort col dir rows).Perm rows ∧
    List.Pairwise (fun a b => ¬(keyRank col a = none ∧ keyRank col b ≠ none))
      (handleSort col dir rows) ∧
    List.Pairwise (fun a b => ∀ sa sb, keyRank col a = some sa → keyRank col b = some sb →
      dirLE dir sa sb) (handleSort col dir rows) ∧
    (∀ s : String,
      (handleSort col dir rows).filter (fun r => decide (keyRank col r = some s)) =
        rows.filter (fun r => decide (keyRank col r = some s))) ∧
    handleSort "n" .asc [[("n", Val.str "b")], [("n", Val.null)], [("n", Val.str "a")]] =
      [[("n", Val.str "a")], [("n", Val.str "b")], [("n", Val.null)]] ∧
    handleSort "n" .desc [[("n", Val.str "b")], [("n", Val.null)], [("n", Val.str "a")]] =
      [[("n", Val.str "b")], [("n", Val.str "a")], [("n", Val.null)]] := by
  have hpw : List.Pairwise (nullsLastRel col dir) (handleSort col dir rows) :=
    pairwise_sortCmp (nullsLastRel col dir) (sortCompare col dir)
      (fun _ _ h => nullsLastRel_flip h) (fun _ _ h => nullsLastRel_stop h)
      (fun h1 h2 => nullsLastRel_trans h1 h2) rows
  refine ⟨perm_sortCmp _ rows, ?_, ?_, ?_, by decide, by decide⟩
  · refine hpw.imp ?_
    intro a b hab
    rintro ⟨hka, hkb⟩
    rcases hab with hab | ⟨_, hkb'⟩
    · cases hx : keyRank col b with
      | none => exact hkb hx
      | some sb =>
          have hq := sortCompare_eq col dir a b
          rw [hka, hx] at hq
          have hq' : sortCompare col dir a b = 1 := hq
          rw [hq'] at hab
          omega
    · exact hkb hkb'
  · refine hpw.imp ?_
    intro a b hab sa sb hka hkb
    rcases hab with hab | ⟨hka', _⟩
    · have hq := sortCompare_eq col dir a b
      rw [hka, hkb] at hq
      have hq' : sortCompare col dir a b = strCmpDir dir sa sb := hq
      rw [hq'] at hab
      exact (strCmpDir_nonpos dir sa sb).mp hab
    · rw [hka] at hka'
      cases hka'
  · intro s
    refine filter_sortCmp _ _ ?_ rows
    intro x y hx hy
    have hx' : keyRank col x = some s := of_decide_eq_true hx
    have hy' : keyRank col y = some s := of_decide_eq_true hy
    have hq := sortCompare_eq col dir x y
    rw [hx', hy'] at hq
    have hq' : sortCompare col dir x y = strCmpDir dir s s := hq
    rw [hq', strCmpDir_self]
    omega

/-! ## Claim C5: flatten/unflatten round trip -/

theorem lookupOwn_eq_none_iff (r : Row) (k : String) :
    lookupOwn r k = none ↔ k ∉ keysOf r := by
  induction r with
  | nil => simp [lookupOwn, keysOf]
  | cons kv rest ih =>
      obtain ⟨k', v⟩ := kv
      show (if k' = k then some v else lookupOwn rest k) = none ↔ _
      by_cases hk : k' = k
      · rw [if_pos hk]
        simp [keysOf, hk]
      · rw [if_neg hk]
        simp only [keysOf, List.map_cons, List.mem_cons, ih]
        constructor
        · rintro h (he | he)
          · exact hk he.symm
          · exact h he
        · intro h he
          exact h (Or.inr he)

theorem setOwn_append_fresh (acc : Row) (k : String) (v : Val) (hk : k ∉ keysOf acc) :
    setOwn acc k v = acc ++ [(k, v)] := by
  induction acc with
  | nil => rfl
  | cons kv rest ih =>
      obtain ⟨k', v'⟩ := kv
      show (if k' = k then (k', v) :: rest else (k', v') :: setOwn rest k v) = _
      have hk' : k' ≠ k := by
        intro he
        exact hk (by simp [keysOf, he])
      rw [if_neg hk', ih (fun hm => hk (by simp [keysOf]; exact Or.inr (by simpa [keysOf] using hm)))]
      rfl

theorem lookupOwn_append_right (p q : Row) (k : String) (hk : k ∉ keysOf p) :
    lookupOwn (p ++ q) k = lookupOwn q k := by
  induction p with
  | nil => rfl
  | cons kv rest ih =>
      obtain ⟨k', v'⟩ := kv
      show (if k' = k then some v' else lookupOwn (rest ++ q) k) = _
      have hk' : k' ≠ k := fun he => hk (by simp [keysOf, he])
      rw [if_neg hk', ih (fun hm => hk (by simp [keysOf] at hm ⊢; exact Or.inr hm))]

theorem setOwn_lookup_self (r : Row) (k : String) (v : Val) (h : lookupOwn r k = some v) :
    setOwn r k v = r := by
  induction r with
  | nil => cases h
  | cons kv rest ih =>
      obtain ⟨k', v'⟩ := kv
      show (if k' = k then (k', v) :: rest else (k', v') :: setOwn rest k v) = _
      revert h
      show (if k' = k then some v' else lookupOwn rest k) = some v → _
      by_cases hk : k' = k
      · rw [if_pos hk, if_pos hk]
        intro h
        rw [Option.some.inj h]
      · rw [if_neg hk, if_neg hk]
        intro h
        rw [ih h]

theorem keysOf_cons (k : String) (v : Val) (rest : Row) :
    keysOf ((k, v) :: rest) = k :: keysOf rest := rfl

theorem keysOf_append (p q : Row) : keysOf (p ++ q) = keysOf p ++ keysOf q :=
  List.map_append _ _ _

theorem setOwn_present_last (p : Row) (k : String) (w v : Val) (hk : k ∉ keysOf p) :
    setOwn (p ++ [(k, w)]) k v = p ++ [(k, v)] := by
  induction p with
  | nil =>
      show (if k = k then (k, v) :: [] else _) = _
      rw [if_pos rfl]
      rfl
  | cons kv rest ih =>
      obtain ⟨k', v'⟩ := kv
      show (if k' = k then (k', v) :: (rest ++ [(k, w)])
            else (k', v') :: setOwn (rest ++ [(k, w)]) k v) = _
      have hk' : k' ≠ k := fun he => hk (by simp [keysOf, he])
      rw [if_neg hk', ih (fun hm => hk (by simp [keysOf] at hm ⊢; exact Or.inr hm))]
      rfl

theorem jsAssign_append (acc src : Row)
    (hdisj : ∀ k ∈ keysOf src, k ∉ keysOf acc) (hnodup : (keysOf src).Nodup) :
    jsAssign acc src = acc ++ src := by
  induction src generalizing acc with
  | nil => simp [jsAssign]
  | cons kv rest ih =>
      obtain ⟨k, v⟩ := kv
      have hkacc : k ∉ keysOf acc := hdisj k (by rw [keysOf_cons]; exact List.mem_cons_self _ _)
      have hns : (keysOf rest).Nodup ∧ k ∉ keysOf rest := by
        rw [keysOf_cons] at hnodup
        exact ⟨(List.nodup_cons.mp hnodup).2, (List.nodup_cons.mp hnodup).1⟩
      show jsAssign (setOwn acc k v) rest = _
      rw [setOwn_append_fresh acc k v hkacc]
      have hdisj' : ∀ k' ∈ keysOf rest, k' ∉ keysOf (acc ++ [(k, v)]) := by
        intro k' hk'
        rw [keysOf_append]
        intro hmem
        rcases List.mem_append.mp hmem with hm | hm
        · exact hdisj k' (by rw [keysOf_cons]; exact List.mem_cons_of_mem _ hk') hm
        · rcases List.mem_cons.mp (by simpa [keysOf] using hm : k' ∈ [k]) with hm' | hm'
          · rw [hm'] at hk'
            exact hns.2 hk'
          · cases hm'
      rw [ih (acc ++ [(k, v)]) hdisj' hns.1]
      simp

theorem goodFields_cons {k : String} {v : Val} {rest : List (String × Val)}
    (h : goodFields ((k, v) :: rest) = true) :
    goodEntry (k, v) = true ∧ k ∉ keysOf rest ∧ goodFields rest = true := by
  simp only [goodFields, Bool.and_eq_true] at h
  obtain ⟨⟨h1, h2⟩, h3⟩ := h
  refine ⟨h1, ?_, h3⟩
  intro hm
  rw [decide_eq_true hm] at h2
  cases h2

theorem goodEntry_key {k : String} {v : Val} (h : goodEntry (k, v) = true) :
    k ≠ "" ∧ '.' ∉ k.data := by
  unfold goodEntry at h
  have hk := (Bool.and_eq_true_iff.mp h).1
  unfold goodKey at hk
  rcases Bool.and_eq_true_iff.mp hk with ⟨h1, h2⟩
  refine ⟨of_decide_eq_true h1, ?_⟩
  intro hm
  rw [decide_eq_true hm] at h2
  cases h2

theorem goodEntry_obj {k : String} {fields : List (String × Val)}
    (h : goodEntry (k, Val.obj fields) = true) :
    fields ≠ [] ∧ k ∉ objectProtoKeys ∧ goodFields fields = true := by
  simp only [goodEntry, Bool.and_eq_true] at h
  obtain ⟨-, hrest⟩ := h
  obtain ⟨⟨h2, h4⟩, h3⟩ := hrest
  refine ⟨of_decide_eq_true h2, ?_, h3⟩
  intro hm
  rw [decide_eq_true hm] at h4
  cases h4

theorem leaves_nil : leaves [] = [] := by simp [leaves]

theorem leaves_cons_obj (k : String) (fields rest : List (String × Val)) :
    leaves ((k, Val.obj fields) :: rest) =
      (leaves fields).map (fun pw => (k :: pw.1, pw.2)) ++ leaves rest := by
  simp [leaves]

theorem sizeOf_fields_lt (k : String) (fields rest : List (String × Val)) :
    sizeOf fields < sizeOf ((k, Val.obj fields) :: rest) ∧
    sizeOf rest < sizeOf ((k, Val.obj fields) :: rest) := by
  simp
  omega

theorem sizeOf_rest_lt (k : String) (v : Val) (rest : List (String × Val)) :
    sizeOf rest < sizeOf ((k, v) :: rest) := by
  simp

theorem leaves_spec (n : Nat) : ∀ g : List (String × Val), sizeOf g ≤ n →
    goodFields g = true →
    (∀ pw ∈ leaves g, goodPathP pw.1 ∧ ∃ k p', pw.1 = k :: p' ∧ k ∈ keysOf g) ∧
    List.Pairwise (fun pw qw : List String × Val => pw.1 ≠ qw.1) (leaves g) ∧
    (g ≠ [] → leaves g ≠ []) := by
  induction n with
  | zero =>
      intro g hsz
      exfalso
      cases g <;> simp at hsz
  | succ n ih =>
      intro g hsz hg
      cases g with
      | nil =>
          refine ⟨?_, ?_, ?_⟩
          · intro pw hpw
            rw [leaves_nil] at hpw
            cases hpw
          · rw [leaves_nil]
            exact List.Pairwise.nil
          · intro h
            exact absurd rfl h
      | cons kv rest =>
          obtain ⟨k, v⟩ := kv
          obtain ⟨hE, hknr, hrest⟩ := goodFields_cons hg
          have hszr : sizeOf rest ≤ n := by
            have := sizeOf_rest_lt k v rest
            omega
          have hres := ih rest hszr hrest
          cases v with
          | obj fields =>
              obtain ⟨hfne, hkproto, hgfields⟩ := goodEntry_obj hE
              have hszf : sizeOf fields ≤ n := by
                have := (sizeOf_fields_lt k fields rest).1
                omega
              have hfs := ih fields hszf hgfields
              have hgk := goodEntry_key hE
              rw [leaves_cons_obj]
              refine ⟨?_, ?_, ?_⟩
              · intro pw hpw
                rcases List.mem_append.mp hpw with hm | hm
                · rcases List.mem_map.mp hm with ⟨qw, hqw, hq⟩

                  obtain ⟨⟨hqne, hqgood⟩, _⟩ := hfs.1 qw hqw
                  refine ⟨⟨by rw [← hq]; simp, ?_⟩, ⟨k, qw.1, by rw [← hq], ?_⟩⟩
                  · intro k' hk'
                    rw [← hq] at hk'
                    rcases List.mem_cons.mp hk' with h' | h'
                    · exact h' ▸ hgk
                    · exact hqgood k' h'
                  · rw [keysOf_cons]
                    exact List.mem_cons_self _ _
                · obtain ⟨hpgood, ⟨k', p', hph, hpk⟩⟩ := hres.1 pw hm
                  exact ⟨hpgood, ⟨k', p', hph, by rw [keysOf_cons]; exact List.mem_cons_of_mem _ hpk⟩⟩
              · rw [List.pairwise_append]
                refine ⟨?_, hres.2.1, ?_⟩
                · rw [List.pairwise_map]
                  exact hfs.2.1.imp (fun hne he => hne (List.cons.inj he).2)
                · intro a ha b hb
                  rcases List.mem_map.mp ha with ⟨qw, _, hq⟩
                  obtain ⟨_, ⟨kb, pb, hbh, hbk⟩⟩ := hres.1 b hb
                  rw [← hq, hbh]
                  intro he
                  have hkk : k = kb := (List.cons.injEq _ _ _ _ ▸ he).1
                  exact hknr (hkk ▸ hbk)
              · intro _
                have hlf : leaves fields ≠ [] := hfs.2.2 hfne
                intro he
                rcases List.append_eq_nil.mp he with ⟨h1, _⟩
                exact hlf (List.map_eq_nil_iff.mp h1)
          | null =>
              rw [show leaves ((k, Val.null) :: rest) = ([k], Val.null) :: leaves rest by
                simp [leaves]]
              have hgk := goodEntry_key hE
              refine ⟨?_, ?_, fun _ => by simp⟩
              · intro pw hpw
                rcases List.mem_cons.mp hpw with hm | hm
                · rw [hm]
                  exact ⟨⟨by simp, fun k' hk' => by
                    rcases List.mem_singleton.mp hk' with h'
                    exact h' ▸ hgk⟩, ⟨k, [], rfl, by rw [keysOf_cons]; exact List.mem_cons_self _ _⟩⟩
                · obtain ⟨hpgood, ⟨k', p', hph, hpk⟩⟩ := hres.1 pw hm
                  exact ⟨hpgood, ⟨k', p', hph,
                    by rw [keysOf_cons]; exact List.mem_cons_of_mem _ hpk⟩⟩
              · refine List.pairwise_cons.mpr ⟨?_, hres.2.1⟩
                intro b hb
                obtain ⟨_, ⟨kb, pb, hbh, hbk⟩⟩ := hres.1 b hb
                rw [hbh]
                intro he
                have hkk : k = kb ∧ ([] : List String) = pb := by
                  have := List.cons.injEq k [] kb pb ▸ he
                  simpa using he
                exact hknr (hkk.1 ▸ hbk)
          | bool c =>
              rw [show leaves ((k, Val.bool c) :: rest) = ([k], Val.bool c) :: leaves rest by
                simp [leaves]]
              have hgk := goodEntry_key hE
              refine ⟨?_, ?_, fun _ => by simp⟩
              · intro pw hpw
                rcases List.mem_cons.mp hpw with hm | hm
                · rw [hm]
                  exact ⟨⟨by simp, fun k' hk' => by
                    rcases List.mem_singleton.mp hk' with h'
                    exact h' ▸ hgk⟩, ⟨k, [], rfl, by rw [keysOf_cons]; exact List.mem_cons_self _ _⟩⟩
                · obtain ⟨hpgood, ⟨k', p', hph, hpk⟩⟩ := hres.1 pw hm
                  exact ⟨hpgood, ⟨k', p', hph,
                    by rw [keysOf_cons]; exact List.mem_cons_of_mem _ hpk⟩⟩
              · refine List.pairwise_cons.mpr ⟨?_, hres.2.1⟩
                intro b hb
                obtain ⟨_, ⟨kb, pb, hbh, hbk⟩⟩ := hres.1 b hb
                rw [hbh]
                intro he
                have hkk : k = kb ∧ ([] : List String) = pb := by simpa using he
                exact hknr (hkk.1 ▸ hbk)
          | num c =>
              rw [show leaves ((k, Val.num c) :: rest) = ([k], Val.num c) :: leaves rest by
                simp [leaves]]
              have hgk := goodEntry_key hE
              refine ⟨?_, ?_, fun _ => by simp⟩
              · intro pw hpw
                rcases List.mem_cons.mp hpw with hm | hm
                · rw [hm]
                  exact ⟨⟨by simp, fun k' hk' => by
                    rcases List.mem_singleton.mp hk' with h'
                    exact h' ▸ hgk⟩, ⟨k, [], rfl, by rw [keysOf_cons]; exact List.mem_cons_self _ _⟩⟩
                · obtain ⟨hpgood, ⟨k', p', hph, hpk⟩⟩ := hres.1 pw hm
                  exact ⟨hpgood, ⟨k', p', hph,
                    by rw [keysOf_cons]; exact List.mem_cons_of_mem _ hpk⟩⟩
              · refine List.pairwise_cons.mpr ⟨?_, hres.2.1⟩
                intro b hb
                obtain ⟨_, ⟨kb, pb, hbh, hbk⟩⟩ := hres.1 b hb
                rw [hbh]
                intro he
                have hkk : k = kb ∧ ([] : List String) = pb := by simpa using he
                exact hknr (hkk.1 ▸ hbk)
          | str c =>
              rw [show leaves ((k, Val.str c) :: rest) = ([k], Val.str c) :: leaves rest by
                simp [leaves]]
              have hgk := goodEntry_key hE
              refine ⟨?_, ?_, fun _ => by simp⟩
              · intro pw hpw
                rcases List.mem_cons.mp hpw with hm | hm
                · rw [hm]
                  exact ⟨⟨by simp, fun k' hk' => by
                    rcases List.mem_singleton.mp hk' with h'
                    exact h' ▸ hgk⟩, ⟨k, [], rfl, by rw [keysOf_cons]; exact List.mem_cons_self _ _⟩⟩
                · obtain ⟨hpgood, ⟨k', p', hph, hpk⟩⟩ := hres.1 pw hm
                  exact ⟨hpgood, ⟨k', p', hph,
                    by rw [keysOf_cons]; exact List.mem_cons_of_mem _ hpk⟩⟩
              · refine List.pairwise_cons.mpr ⟨?_, hres.2.1⟩
                intro b hb
                obtain ⟨_, ⟨kb, pb, hbh, hbk⟩⟩ := hres.1 b hb
                rw [hbh]
                intro he
                have hkk : k = kb ∧ ([] : List String) = pb := by simpa using he
                exact hknr (hkk.1 ▸ hbk)
          | arr c =>
              rw [show leaves ((k, Val.arr c) :: rest) = ([k], Val.arr c) :: leaves rest by
                simp [leaves]]
              have hgk := goodEntry_key hE
              refine ⟨?_, ?_, fun _ => by simp⟩
              · intro pw hpw
                rcases List.mem_cons.mp hpw with hm | hm
                · rw [hm]
                  exact ⟨⟨by simp, fun k' hk' => by
                    rcases List.mem_singleton.mp hk' with h'
                    exact h' ▸ hgk⟩, ⟨k, [], rfl, by rw [keysOf_cons]; exact List.mem_cons_self _ _⟩⟩
                · obtain ⟨hpgood, ⟨k', p', hph, hpk⟩⟩ := hres.1 pw hm
                  exact ⟨hpgood, ⟨k', p', hph,
                    by rw [keysOf_cons]; exact List.mem_cons_of_mem _ hpk⟩⟩
              · refine List.pairwise_cons.mpr ⟨?_, hres.2.1⟩
                intro b hb
                obtain ⟨_, ⟨kb, pb, hbh, hbk⟩⟩ := hres.1 b hb
                rw [hbh]
                intro he
                have hkk : k = kb ∧ ([] : List String) = pb := by simpa using he
                exact hknr (hkk.1 ▸ hbk)

theorem string_eta (s : String) : String.mk s.data = s := by
  cases s
  rfl

theorem splitCharAux_no_sep (cs acc : List Char) (h : '.' ∉ cs) :
    splitCharAux '.' cs acc = [⟨acc.reverse ++ cs⟩] := by
  induction cs generalizing acc with
  | nil => simp [splitCharAux]
  | cons c rest ih =>
      have hc : c ≠ '.' := fun he => h (he ▸ List.mem_cons_self _ _)
      show (if c = '.' then _ else splitCharAux '.' rest (c :: acc)) = _
      rw [if_neg hc, ih (c :: acc) (fun hm => h (List.mem_cons_of_mem _ hm))]
      simp

theorem splitCharAux_sep (cs rest acc : List Char) (h : '.' ∉ cs) :
    splitCharAux '.' (cs ++ '.' :: rest) acc =
      (⟨acc.reverse ++ cs⟩ : String) :: splitCharAux '.' rest [] := by
  induction cs generalizing acc with
  | nil =>
      show (if '.' = '.' then (⟨acc.reverse⟩ : String) :: splitCharAux '.' rest [] else _) = _
      rw [if_pos rfl]
      simp
  | cons c cs' ih =>
      have hc : c ≠ '.' := fun he => h (he ▸ List.mem_cons_self _ _)
      show (if c = '.' then _ else splitCharAux '.' (cs' ++ '.' :: rest) (c :: acc)) = _
      rw [if_neg hc, ih (c :: acc) (fun hm => h (List.mem_cons_of_mem _ hm))]
      simp

theorem joinDots_cons (k : String) (q : String) (p : List String) :
    joinDots (k :: q :: p) = k ++ "." ++ joinDots (q :: p) := rfl

theorem data_dot_append (a b : String) :
    (a ++ "." ++ b).data = a.data ++ '.' :: b.data := by
  rw [String.data_append, String.data_append, List.append_assoc]
  rfl

theorem jsSplit_joinDots (p : List String) (hp : p ≠ [])
    (hgood : ∀ k ∈ p, k ≠ "" ∧ '.' ∉ k.data) :
    jsSplit (joinDots p) '.' = p := by
  induction p with
  | nil => exact absurd rfl hp
  | cons k p' ih =>
      cases p' with
      | nil =>
          show splitCharAux '.' k.data [] = [k]
          rw [splitCharAux_no_sep k.data []
            (hgood k (List.mem_cons_self _ _)).2]
          simp [string_eta]
      | cons q rest =>
          rw [joinDots_cons]
          show splitCharAux '.' (k ++ "." ++ joinDots (q :: rest)).data [] = _
          rw [data_dot_append, splitCharAux_sep k.data (joinDots (q :: rest)).data []
            (hgood k (List.mem_cons_self _ _)).2]
          have hih : splitCharAux '.' (joinDots (q :: rest)).data [] = q :: rest :=
            ih (by simp) (fun k' hk' => hgood k' (List.mem_cons_of_mem _ hk'))
          rw [hih]
          simp [string_eta]

theorem dot_append_ne_empty (a b : String) : a ++ "." ++ b ≠ "" := by
  intro he
  have hd := congrArg String.data he
  rw [data_dot_append] at hd
  exact absurd hd (by simp)

theorem string_append_cancel_left {a b c : String} (h : a ++ b = a ++ c) : b = c := by
  have hd := congrArg String.data h
  rw [String.data_append, String.data_append] at hd
  exact string_data_inj (List.append_cancel_left hd)

theorem prefKey_ne (pre k : String) (h : pre ≠ "") : prefKey pre k = pre ++ "." ++ k := by
  unfold prefKey
  rw [if_neg h]

theorem prefKey_emp (k : String) : prefKey "" k = k := by
  unfold prefKey
  rw [if_pos rfl]

theorem foldl_prefKey_ne_empty (p : List String) (pre : String) (hpre : pre ≠ "")
    (hp : p ≠ []) :
    p.foldl prefKey pre = pre ++ "." ++ joinDots p := by
  induction p generalizing pre with
  | nil => exact absurd rfl hp
  | cons k p' ih =>
      cases p' with
      | nil =>
          show prefKey pre k = _
          rw [prefKey_ne pre k hpre]
          rfl
      | cons q rest =>
          show (q :: rest).foldl prefKey (prefKey pre k) = _
          rw [prefKey_ne pre k hpre,
            ih (pre ++ "." ++ k) (dot_append_ne_empty pre k) (by simp),
            joinDots_cons]
          simp [String.append_assoc]

theorem foldl_prefKey_empty (k : String) (p' : List String) (hk : k ≠ "") :
    (k :: p').foldl prefKey "" = joinDots (k :: p') := by
  show p'.foldl prefKey (prefKey "" k) = _
  rw [prefKey_emp]
  cases p' with
  | nil => rfl
  | cons q rest =>
      rw [foldl_prefKey_ne_empty (q :: rest) k hk (by simp), joinDots_cons]

/-- Folded flat keys are injective on good paths for any fixed
prefix. -/
theorem foldl_prefKey_inj (pre : String) (p q : List String)
    (hpg : goodPathP p) (hqg : goodPathP q)
    (h : p.foldl prefKey pre = q.foldl prefKey pre) : p = q := by
  obtain ⟨hpne, hpgood⟩ := hpg
  obtain ⟨hqne, hqgood⟩ := hqg
  have hjoin : joinDots p = joinDots q := by
    by_cases hpre : pre = ""
    · subst hpre
      obtain ⟨kp, p', rfl⟩ := List.exists_cons_of_ne_nil hpne
      obtain ⟨kq, q', rfl⟩ := List.exists_cons_of_ne_nil hqne
      rw [foldl_prefKey_empty kp p' (hpgood kp (List.mem_cons_self _ _)).1,
        foldl_prefKey_empty kq q' (hqgood kq (List.mem_cons_self _ _)).1] at h
      exact h
    · rw [foldl_prefKey_ne_empty p pre hpre hpne,
        foldl_prefKey_ne_empty q pre hpre hqne] at h
      have h2 : ("." : String) ++ joinDots p = ("." : String) ++ joinDots q := by
        have := string_append_cancel_left
          (a := pre) (b := ("." : String) ++ joinDots p) (c := ("." : String) ++ joinDots q)
        apply this
        rw [← String.append_assoc, ← String.append_assoc]
        exact h
      exact string_append_cancel_left h2
  have hsp := jsSplit_joinDots p hpne hpgood
  have hsq := jsSplit_joinDots q hqne hqgood
  rw [← hsp, ← hsq, hjoin]

theorem leaves_cons_leaf (k : String) (v : Val) (rest : List (String × Val))
    (hv : ∀ f, v ≠ Val.obj f) :
    leaves ((k, v) :: rest) = ([k], v) :: leaves rest := by
  cases v with
  | obj f => exact absurd rfl (hv f)
  | null => simp [leaves]
  | bool _ => simp [leaves]
  | num _ => simp [leaves]
  | str _ => simp [leaves]
  | arr _ => simp [leaves]

theorem flattenAux_nil (pre : String) (acc : Row) : flattenAux pre [] acc = acc := by
  simp [flattenAux]

theorem flattenAux_cons_obj (pre k : String) (fields rest : List (String × Val)) (acc : Row) :
    flattenAux pre ((k, Val.obj fields) :: rest) acc =
      flattenAux pre rest (jsAssign acc (flattenAux (prefKey pre k) fields [])) := by
  simp [flattenAux, prefKey]

theorem flattenAux_cons_leaf (pre k : String) (v : Val) (rest : List (String × Val))
    (acc : Row) (hv : ∀ f, v ≠ Val.obj f) :
    flattenAux pre ((k, v) :: rest) acc =
      flattenAux pre rest (setOwn acc (prefKey pre k) v) := by
  cases v with
  | obj f => exact absurd rfl (hv f)
  | null => simp [flattenAux, prefKey]
  | bool _ => simp [flattenAux, prefKey]
  | num _ => simp [flattenAux, prefKey]
  | str _ => simp [flattenAux, prefKey]
  | arr _ => simp [flattenAux, prefKey]

theorem leavesMap_nil (pre : String) : leavesMap pre [] = [] := by
  simp [leavesMap, leaves_nil]

theorem leavesMap_cons_obj (pre k : String) (fields rest : List (String × Val)) :
    leavesMap pre ((k, Val.obj fields) :: rest) =
      leavesMap (prefKey pre k) fields ++ leavesMap pre rest := by
  unfold leavesMap
  rw [leaves_cons_obj, List.map_append, List.map_map]
  rfl

theorem leavesMap_cons_leaf (pre k : String) (v : Val) (rest : List (String × Val))
    (hv : ∀ f, v ≠ Val.obj f) :
    leavesMap pre ((k, v) :: rest) = (prefKey pre k, v) :: leavesMap pre rest := by
  unfold leavesMap
  rw [leaves_cons_leaf k v rest hv, List.map_cons]
  rfl

theorem keysOf_leavesMap (pre : String) (g : List (String × Val)) :
    keysOf (leavesMap pre g) = flatKeys pre g := by
  unfold keysOf leavesMap flatKeys
  rw [List.map_map]
  rfl

theorem flatKeys_cons_obj (pre k : String) (fields rest : List (String × Val)) :
    flatKeys pre ((k, Val.obj fields) :: rest) =
      flatKeys (prefKey pre k) fields ++ flatKeys pre rest := by
  rw [← keysOf_leavesMap, ← keysOf_leavesMap, ← keysOf_leavesMap, ← keysOf_append,
    leavesMap_cons_obj]

theorem flatKeys_cons_leaf (pre k : String) (v : Val) (rest : List (String × Val))
    (hv : ∀ f, v ≠ Val.obj f) :
    flatKeys pre ((k, v) :: rest) = prefKey pre k :: flatKeys pre rest := by
  rw [← keysOf_leavesMap, ← keysOf_leavesMap, leavesMap_cons_leaf pre k v rest hv,
    keysOf_cons]

/-- The flat keys of a good object are pairwise distinct. -/
theorem flatKeys_nodup (g : List (String × Val)) (pre : String)
    (hg : goodFields g = true) : (flatKeys pre g).Nodup := by
  have hspec := leaves_spec (sizeOf g) g le_rfl hg
  unfold flatKeys
  have hpw : List.Pairwise
      (fun pw qw : List String × Val =>
        pw.1.foldl prefKey pre ≠ qw.1.foldl prefKey pre) (leaves g) := by
    refine hspec.2.1.imp_of_mem ?_
    intro a b ha hb hne he
    exact hne (foldl_prefKey_inj pre a.1 b.1 (hspec.1 a ha).1 (hspec.1 b hb).1 he)
  exact (List.pairwise_map).mpr hpw

/-- The flatten worker appends exactly the joined leaves, as long as
the incoming flat keys collide neither with the accumulator nor with
each other. -/
theorem flattenAux_eq (n : Nat) : ∀ (g : List (String × Val)) (pre : String) (acc : Row),
    sizeOf g ≤ n → goodFields g = true →
    (keysOf acc ++ flatKeys pre g).Nodup →
    flattenAux pre g acc = acc ++ leavesMap pre g := by
  induction n with
  | zero =>
      intro g pre acc hsz
      exfalso
      cases g <;> simp at hsz
  | succ n ih =>
      intro g pre acc hsz hg hnd
      cases g with
      | nil =>
          rw [flattenAux_nil, leavesMap_nil, List.append_nil]
      | cons kv rest =>
          obtain ⟨k, v⟩ := kv
          obtain ⟨hE, hknr, hrest⟩ := goodFields_cons hg
          have hszr : sizeOf rest ≤ n := by
            have := sizeOf_rest_lt k v rest
            omega
          cases v with
          | obj fields =>
              obtain ⟨hfne, hkproto, hgfields⟩ := goodEntry_obj hE
              have hszf : sizeOf fields ≤ n := by
                have := (sizeOf_fields_lt k fields rest).1
                omega
              rw [flatKeys_cons_obj] at hnd
              have hndA : (flatKeys (prefKey pre k) fields).Nodup :=
                flatKeys_nodup fields (prefKey pre k) hgfields
              have hinner : flattenAux (prefKey pre k) fields [] =
                  leavesMap (prefKey pre k) fields := by
                rw [ih fields (prefKey pre k) [] hszf hgfields
                  (by simpa [keysOf] using hndA)]
                rfl
              rw [flattenAux_cons_obj, hinner]
              have hdisj0 := (List.nodup_append.mp hnd).2.2
              have hassign : jsAssign acc (leavesMap (prefKey pre k) fields) =
                  acc ++ leavesMap (prefKey pre k) fields := by
                refine jsAssign_append _ _ ?_ ?_
                · intro k' hk'
                  rw [keysOf_leavesMap] at hk'
                  intro hacc
                  exact hdisj0 hacc (List.mem_append.mpr (Or.inl hk'))
                · rw [keysOf_leavesMap]
                  exact hndA
              rw [hassign]
              have hnd' : (keysOf (acc ++ leavesMap (prefKey pre k) fields) ++
                  flatKeys pre rest).Nodup := by
                rw [keysOf_append, keysOf_leavesMap, List.append_assoc]
                exact hnd
              rw [ih rest pre _ hszr hrest hnd', leavesMap_cons_obj]
              simp [List.append_assoc]
          | null =>
              have hv : ∀ f, Val.null ≠ Val.obj f := fun f h => by cases h
              rw [flattenAux_cons_leaf pre k _ rest acc hv]
              rw [flatKeys_cons_leaf pre k _ rest hv] at hnd
              have hfresh : prefKey pre k ∉ keysOf acc := by
                have hdisj0 := (List.nodup_append.mp hnd).2.2
                intro hacc
                exact hdisj0 hacc (List.mem_cons_self _ _)
              rw [setOwn_append_fresh acc _ _ hfresh]
              have hnd' : (keysOf (acc ++ [(prefKey pre k, Val.null)]) ++
                  flatKeys pre rest).Nodup := by
                rw [keysOf_append]
                simpa [keysOf, List.append_assoc] using hnd
              rw [ih rest pre _ hszr hrest hnd', leavesMap_cons_leaf pre k _ rest hv]
              simp
          | bool c =>
              have hv : ∀ f, Val.bool c ≠ Val.obj f := fun f h => by cases h
              rw [flattenAux_cons_leaf pre k _ rest acc hv]
              rw [flatKeys_cons_leaf pre k _ rest hv] at hnd
              have hfresh : prefKey pre k ∉ keysOf acc := by
                have hdisj0 := (List.nodup_append.mp hnd).2.2
                intro hacc
                exact hdisj0 hacc (List.mem_cons_self _ _)
              rw [setOwn_append_fresh acc _ _ hfresh]
              have hnd' : (keysOf (acc ++ [(prefKey pre k, Val.bool c)]) ++
                  flatKeys pre rest).Nodup := by
                rw [keysOf_append]
                simpa [keysOf, List.append_assoc] using hnd
              rw [ih rest pre _ hszr hrest hnd', leavesMap_cons_leaf pre k _ rest hv]
              simp
          | num c =>
              have hv : ∀ f, Val.num c ≠ Val.obj f := fun f h => by cases h
              rw [flattenAux_cons_leaf pre k _ rest acc hv]
              rw [flatKeys_cons_leaf pre k _ rest hv] at hnd
              have hfresh : prefKey pre k ∉ keysOf acc := by
                have hdisj0 := (List.nodup_append.mp hnd).2.2
                intro hacc
                exact hdisj0 hacc (List.mem_cons_self _ _)
              rw [setOwn_append_fresh acc _ _ hfresh]
              have hnd' : (keysOf (acc ++ [(prefKey pre k, Val.num c)]) ++
                  flatKeys pre rest).Nodup := by
                rw [keysOf_append]
                simpa [keysOf, List.append_assoc] using hnd
              rw [ih rest pre _ hszr hrest hnd', leavesMap_cons_leaf pre k _ rest hv]
              simp
          | str c =>
              have hv : ∀ f, Val.str c ≠ Val.obj f := fun f h => by cases h
              rw [flattenAux_cons_leaf pre k _ rest acc hv]
              rw [flatKeys_cons_leaf pre k _ rest hv] at hnd
              have hfresh : prefKey pre k ∉ keysOf acc := by
                have hdisj0 := (List.nodup_append.mp hnd).2.2
                intro hacc
                exact hdisj0 hacc (List.mem_cons_self _ _)
              rw [setOwn_append_fresh acc _ _ hfresh]
              have hnd' : (keysOf (acc ++ [(prefKey pre k, Val.str c)]) ++
                  flatKeys pre rest).Nodup := by
                rw [keysOf_append]
                simpa [keysOf, List.append_assoc] using hnd
              rw [ih rest pre _ hszr hrest hnd', leavesMap_cons_leaf pre k _ rest hv]
              simp
          | arr c =>
              have hv : ∀ f, Val.arr c ≠ Val.obj f := fun f h => by cases h
              rw [flattenAux_cons_leaf pre k _ rest acc hv]
              rw [flatKeys_cons_leaf pre k _ rest hv] at hnd
              have hfresh : prefKey pre k ∉ keysOf acc := by
                have hdisj0 := (List.nodup_append.mp hnd).2.2
                intro hacc
                exact hdisj0 hacc (List.mem_cons_self _ _)
              rw [setOwn_append_fresh acc _ _ hfresh]
              have hnd' : (keysOf (acc ++ [(prefKey pre k, Val.arr c)]) ++
                  flatKeys pre rest).Nodup := by
                rw [keysOf_append]
                simpa [keysOf, List.append_assoc] using hnd
              rw [ih rest pre _ hszr hrest hnd', leavesMap_cons_leaf pre k _ rest hv]
              simp

/-- `flattenObject` of a good object is exactly the joined leaf
list. -/
theorem flattenObject_eq_leavesMap (g : List (String × Val)) (pre : String)
    (hg : goodFields g = true) : flattenObject g pre = leavesMap pre g := by
  unfold flattenObject
  rw [flattenAux_eq (sizeOf g) g pre [] le_rfl hg
    (by simpa [keysOf] using flatKeys_nodup g pre hg)]
  rfl

theorem lookupOwn_singleton (k : String) (v : Val) : lookupOwn [(k, v)] k = some v := by
  show (if k = k then some v else lookupOwn [] k) = some v
  rw [if_pos rfl]

theorem setOwn_setOwn (r : Row) (k : String) (a b : Val) :
    setOwn (setOwn r k a) k b = setOwn r k b := by
  induction r with
  | nil =>
      show setOwn [(k, a)] k b = [(k, b)]
      show (if k = k then (k, b) :: [] else _) = _
      rw [if_pos rfl]
  | cons kv rest ih =>
      obtain ⟨k', v'⟩ := kv
      by_cases hk : k' = k
      · show setOwn (if k' = k then (k', a) :: rest else _) k b = _
        rw [if_pos hk]
        show (if k' = k then (k', b) :: rest else _) = _
        rw [if_pos hk]
        show _ = (if k' = k then (k', b) :: rest else _)
        rw [if_pos hk]
      · show setOwn (if k' = k then (k', a) :: rest else (k', v') :: setOwn rest k a) k b = _
        rw [if_neg hk]
        show (if k' = k then _ else (k', v') :: setOwn (setOwn rest k a) k b) = _
        rw [if_neg hk, ih]
        show _ = (if k' = k then _ else (k', v') :: setOwn rest k b)
        rw [if_neg hk]

theorem getPathF_nil (r : Row) : getPathF r [] = some r := rfl

theorem getPathF_cons (r : Row) (k : String) (P : List String) (m : Row)
    (h : lookupOwn r k = some (Val.obj m)) :
    getPathF r (k :: P) = getPathF m P := by
  show (match lookupOwn r k with
        | some (.obj m) => getPathF m P
        | _ => none) = _
  rw [h]

theorem setPathF_nil (r m' : Row) : setPathF r [] m' = m' := rfl

theorem setPathF_cons (r : Row) (k : String) (P : List String) (m m' : Row)
    (h : lookupOwn r k = some (Val.obj m)) :
    setPathF r (k :: P) m' = setOwn r k (Val.obj (setPathF m P m')) := by
  show (match lookupOwn r k with
        | some (.obj m) => setOwn r k (Val.obj (setPathF m P m'))
        | _ => r) = _
  rw [h]

/-- Destructures a successful path walk at a cons. -/
theorem getPathF_cons_inv (r : Row) (k : String) (P : List String) (p : Row)
    (h : getPathF r (k :: P) = some p) :
    ∃ m, lookupOwn r k = some (Val.obj m) ∧ getPathF m P = some p := by
  simp only [getPathF] at h
  cases hl : lookupOwn r k with
  | none => rw [hl] at h; cases h
  | some v =>
      rw [hl] at h
      cases v with
      | obj m => exact ⟨m, rfl, h⟩
      | null => cases h
      | bool b => cases h
      | num n => cases h
      | str s => cases h
      | arr a => cases h

/-- Reading back after a path write yields the written object. -/
theorem getPathF_setPathF (P : List String) : ∀ (r p m' : Row),
    getPathF r P = some p → getPathF (setPathF r P m') P = some m' := by
  induction P with
  | nil => intro r p m' _; rfl
  | cons k P' ih =>
      intro r p m' h
      obtain ⟨m, hm, hrest⟩ := getPathF_cons_inv r k P' p h
      rw [setPathF_cons r k P' m m' hm]
      have hl : lookupOwn (setOwn r k (Val.obj (setPathF m P' m'))) k =
          some (Val.obj (setPathF m P' m')) := by
        rw [lookupOwn_setOwn, if_pos rfl]
      rw [getPathF_cons _ k P' _ hl]
      exact ih m p m' hrest

/-- Two successive path writes collapse to the second. -/
theorem setPathF_setPathF (P : List String) : ∀ (r p m1 m2 : Row),
    getPathF r P = some p → setPathF (setPathF r P m1) P m2 = setPathF r P m2 := by
  induction P with
  | nil => intro r p m1 m2 _; rfl
  | cons k P' ih =>
      intro r p m1 m2 h
      obtain ⟨m, hm, hrest⟩ := getPathF_cons_inv r k P' p h
      rw [setPathF_cons r k P' m m1 hm]
      have hl : lookupOwn (setOwn r k (Val.obj (setPathF m P' m1))) k =
          some (Val.obj (setPathF m P' m1)) := by
        rw [lookupOwn_setOwn, if_pos rfl]
      rw [setPathF_cons _ k P' _ m2 hl, setOwn_setOwn, ih m p m1 m2 hrest,
        setPathF_cons r k P' m m2 hm]

/-- Writing back what is already there is the identity. -/
theorem setPathF_self (P : List String) : ∀ (r p : Row),
    getPathF r P = some p → setPathF r P p = r := by
  induction P with
  | nil =>
      intro r p h
      have : p = r := (Option.some.inj h).symm
      rw [setPathF_nil, this]
  | cons k P' ih =>
      intro r p h
      obtain ⟨m, hm, hrest⟩ := getPathF_cons_inv r k P' p h
      rw [setPathF_cons r k P' m p hm, ih m p hrest]
      exact setOwn_lookup_self r k (Val.obj m) hm

theorem insertPath_single (o : Row) (k : String) (v : Val) :
    insertPath o [k] v = some (setOwn o k v) := by
  simp only [insertPath]

theorem insertPath_cons_obj (o : Row) (k q : String) (Q : List String) (v : Val) (m : Row)
    (h : lookupOwn o k = some (Val.obj m)) :
    insertPath o (k :: q :: Q) v =
      (insertPath m (q :: Q) v).map (fun m' => setOwn o k (Val.obj m')) := by
  simp only [insertPath]
  rw [h]

theorem insertPath_cons_new (o : Row) (k q : String) (Q : List String) (v : Val)
    (h : lookupOwn o k = none) (hk : k ∉ objectProtoKeys) :
    insertPath o (k :: q :: Q) v =
      (insertPath [] (q :: Q) v).map (fun m' => setOwn o k (Val.obj m')) := by
  simp only [insertPath]
  rw [h, if_neg hk]

/-- Inserting at a path whose directory part exists writes the leaf
into that directory object. -/
theorem insertPath_snoc (P : List String) : ∀ (r p : Row) (k : String) (v : Val),
    getPathF r P = some p →
    insertPath r (P ++ [k]) v = some (setPathF r P (setOwn p k v)) := by
  induction P with
  | nil =>
      intro r p k v h
      have hp : p = r := (Option.some.inj h).symm
      rw [hp]
      exact insertPath_single r k v
  | cons q P' ih =>
      intro r p k v h
      obtain ⟨m, hm, hrest⟩ := getPathF_cons_inv r q P' p h
      have hcons : q :: P' ++ [k] = q :: (P' ++ [k]) := rfl
      rw [hcons]
      obtain ⟨a, as, has⟩ : ∃ a as, P' ++ [k] = a :: as := by
        cases P' with
        | nil => exact ⟨k, [], rfl⟩
        | cons b bs => exact ⟨b, bs ++ [k], rfl⟩
      rw [has, insertPath_cons_obj r q a as v m hm, ← has, ih m p k v hrest]
      rw [setPathF_cons r q P' m _ hm]
      rfl

/-- Pre-creating the empty directory object that a deep insert would
create on its walk does not change the result of that insert. -/
theorem insertPath_precreate (P : List String) : ∀ (r p : Row) (k q : String)
    (Q : List String) (v : Val),
    getPathF r P = some p → lookupOwn p k = none → k ∉ objectProtoKeys →
    insertPath r (P ++ k :: q :: Q) v =
      insertPath (setPathF r P (setOwn p k (Val.obj []))) (P ++ k :: q :: Q) v := by
  induction P with
  | nil =>
      intro r p k q Q v h hk hproto
      have hp : p = r := (Option.some.inj h).symm
      subst hp
      rw [List.nil_append, setPathF_nil]
      rw [insertPath_cons_new p k q Q v hk hproto]
      have hl : lookupOwn (setOwn p k (Val.obj [])) k = some (Val.obj []) := by
        rw [lookupOwn_setOwn, if_pos rfl]
      rw [insertPath_cons_obj _ k q Q v [] hl]
      cases insertPath [] (q :: Q) v with
      | none => rfl
      | some m' =>
          show some (setOwn p k (Val.obj m')) = some (setOwn (setOwn p k (Val.obj [])) k _)
          rw [setOwn_setOwn]
  | cons q' P' ih =>
      intro r p k q Q v h hk hproto
      obtain ⟨m, hm, hrest⟩ := getPathF_cons_inv r q' P' p h
      have hsp : setPathF r (q' :: P') (setOwn p k (Val.obj [])) =
          setOwn r q' (Val.obj (setPathF m P' (setOwn p k (Val.obj [])))) :=
        setPathF_cons r q' P' m _ hm
      rw [hsp]
      have hshape : ∃ a as, P' ++ k :: q :: Q = a :: as := by
        cases P' with
        | nil => exact ⟨k, q :: Q, rfl⟩
        | cons b bs => exact ⟨b, bs ++ k :: q :: Q, rfl⟩
      obtain ⟨a, as, has⟩ := hshape
      have hstep : q' :: P' ++ k :: q :: Q = q' :: (P' ++ k :: q :: Q) := rfl
      rw [hstep, has, insertPath_cons_obj r q' a as v m hm]
      have hl2 : lookupOwn (setOwn r q' (Val.obj (setPathF m P' (setOwn p k (Val.obj []))))) q' =
          some (Val.obj (setPathF m P' (setOwn p k (Val.obj [])))) := by
        rw [lookupOwn_setOwn, if_pos rfl]
      rw [insertPath_cons_obj _ q' a as v _ hl2, ← has,
        ← ih m p k q Q v hrest hk hproto]
      cases insertPath m (P' ++ k :: q :: Q) v with
      | none => rfl
      | some m' =>
          show some (setOwn r q' (Val.obj m')) = some (setOwn (setOwn r q' _) q' (Val.obj m'))
          rw [setOwn_setOwn]

theorem setOwn_append_right (p q : Row) (k : String) (v : Val) (hk : k ∉ keysOf p) :
    setOwn (p ++ q) k v = p ++ setOwn q k v := by
  induction p with
  | nil => rfl
  | cons kv rest ih =>
      obtain ⟨k', v'⟩ := kv
      show (if k' = k then (k', v) :: (rest ++ q) else (k', v') :: setOwn (rest ++ q) k v) = _
      have hk' : k' ≠ k := fun he => hk (by simp [keysOf, he])
      rw [if_neg hk', ih (fun hm => hk (by simp [keysOf] at hm ⊢; exact Or.inr hm))]
      rfl

/-- A path walk splits across list append. -/
theorem getPathF_append (P : List String) : ∀ (Q : List String) (r : Row),
    getPathF r (P ++ Q) = (getPathF r P).bind (fun m => getPathF m Q) := by
  induction P with
  | nil => intro Q r; rfl
  | cons k P' ih =>
      intro Q r
      show getPathF r (k :: (P' ++ Q)) = _
      cases hl : lookupOwn r k with
      | none =>
          simp only [getPathF, hl]
          rfl
      | some v =>
          cases v with
          | obj m =>
              rw [getPathF_cons r k (P' ++ Q) m hl, getPathF_cons r k P' m hl]
              exact ih Q m
          | null => simp only [getPathF, hl]; rfl
          | bool b => simp only [getPathF, hl]; rfl
          | num n => simp only [getPathF, hl]; rfl
          | str s => simp only [getPathF, hl]; rfl
          | arr a => simp only [getPathF, hl]; rfl

/-- Writing one level below the end of a walkable path folds into a
write at the path itself. -/
theorem setPathF_snoc (P : List String) : ∀ (r p : Row) (k : String) (w m' : Row),
    getPathF r P = some p → lookupOwn p k = some (Val.obj w) →
    setPathF r (P ++ [k]) m' = setPathF r P (setOwn p k (Val.obj m')) := by
  induction P with
  | nil =>
      intro r p k w m' h hw
      have hp : p = r := (Option.some.inj h).symm
      subst hp
      rw [List.nil_append, setPathF_nil, setPathF_cons p k [] w m' hw, setPathF_nil]
  | cons q P' ih =>
      intro r p k w m' h hw
      obtain ⟨m, hm, hrest⟩ := getPathF_cons_inv r q P' p h
      show setPathF r (q :: (P' ++ [k])) m' = _
      rw [setPathF_cons r q (P' ++ [k]) m m' hm, ih m p k w m' hrest hw,
        setPathF_cons r q P' m _ hm]

theorem foldPaths_nil (r : Row) : foldPaths [] r = some r := rfl

theorem foldPaths_cons (e : List String × Val) (es : List (List String × Val)) (r : Row) :
    foldPaths (e :: es) r = (insertPath r e.1 e.2).bind (fun r' => foldPaths es r') := by
  show List.foldlM _ r (e :: es) = _
  rw [List.foldlM_cons]
  rfl

theorem foldPaths_append (l1 : List (List String × Val)) :
    ∀ (l2 : List (List String × Val)) (r : Row),
    foldPaths (l1 ++ l2) r = (foldPaths l1 r).bind (fun r' => foldPaths l2 r') := by
  induction l1 with
  | nil => intro l2 r; rfl
  | cons e es ih =>
      intro l2 r
      rw [List.cons_append, foldPaths_cons, foldPaths_cons]
      cases insertPath r e.1 e.2 with
      | none => rfl
      | some r' => exact ih l2 r'

theorem setOwn_singleton (k : String) (a b : Val) : setOwn [(k, a)] k b = [(k, b)] := by
  show (if k = k then (k, b) :: [] else _) = _
  rw [if_pos rfl]

/-- Master lemma for the unflatten side: folding the inserts of all
leaves of a good object `g`, with their paths prefixed by a walkable
directory path `P`, appends `g`'s entries to the directory object. -/
theorem foldPaths_leaves (n : Nat) : ∀ (g : List (String × Val)) (P : List String) (r p : Row),
    sizeOf g ≤ n → goodFields g = true → getPathF r P = some p →
    (∀ k ∈ keysOf g, k ∉ keysOf p) →
    foldPaths ((leaves g).map (fun pw => (P ++ pw.1, pw.2))) r =
      some (setPathF r P (p ++ g)) := by
  induction n with
  | zero =>
      intro g P r p hsz
      exfalso
      cases g <;> simp at hsz
  | succ n ih =>
      intro g P r p hsz hg hget hdisj
      cases g with
      | nil =>
          rw [leaves_nil]
          show foldPaths [] r = _
          rw [foldPaths_nil, List.append_nil, setPathF_self P r p hget]
      | cons kv rest =>
          obtain ⟨k, v⟩ := kv
          obtain ⟨hE, hknr, hrest⟩ := goodFields_cons hg
          have hkp : k ∉ keysOf p :=
            hdisj k (by rw [keysOf_cons]; exact List.mem_cons_self _ _)
          have hszr : sizeOf rest ≤ n := by
            have := sizeOf_rest_lt k v rest
            omega
          have hdisj2 : ∀ (w : Val), ∀ k' ∈ keysOf rest, k' ∉ keysOf (p ++ [(k, w)]) := by
            intro w k' hk' hmem
            rw [keysOf_append] at hmem
            rcases List.mem_append.mp hmem with hm | hm
            · exact hdisj k' (by rw [keysOf_cons]; exact List.mem_cons_of_mem _ hk') hm
            · have : k' = k := by simpa [keysOf] using hm
              exact hknr (this ▸ hk')
          have hleafcase : (∀ f, v ≠ Val.obj f) →
              foldPaths ((leaves ((k, v) :: rest)).map (fun pw => (P ++ pw.1, pw.2))) r =
                some (setPathF r P (p ++ (k, v) :: rest)) := by
            intro hv
            rw [leaves_cons_leaf k v rest hv, List.map_cons, foldPaths_cons]
            have hins : insertPath r (P ++ [k]) v = some (setPathF r P (setOwn p k v)) :=
              insertPath_snoc P r p k v hget
            have hsetOwn : setOwn p k v = p ++ [(k, v)] := setOwn_append_fresh p k v hkp
            show (insertPath r (P ++ [k]) v).bind _ = _
            rw [hins, hsetOwn, Option.some_bind]
            have hget2 : getPathF (setPathF r P (p ++ [(k, v)])) P = some (p ++ [(k, v)]) :=
              getPathF_setPathF P r p _ hget
            rw [ih rest P _ (p ++ [(k, v)]) hszr hrest hget2 (hdisj2 v),
              setPathF_setPathF P r p _ _ hget, List.append_assoc]
            rfl
          cases v with
          | null => exact hleafcase (fun f h => Val.noConfusion h)
          | bool b => exact hleafcase (fun f h => Val.noConfusion h)
          | num q => exact hleafcase (fun f h => Val.noConfusion h)
          | str s => exact hleafcase (fun f h => Val.noConfusion h)
          | arr a => exact hleafcase (fun f h => Val.noConfusion h)
          | obj fields =>
              obtain ⟨hfne, hkproto, hgf⟩ := goodEntry_obj hE
              have hszf : sizeOf fields ≤ n := by
                have := (sizeOf_fields_lt k fields rest).1
                omega
              have hfun : ((fun pw : List String × Val => (P ++ pw.1, pw.2)) ∘
                  (fun pw : List String × Val => (k :: pw.1, pw.2))) =
                  (fun pw : List String × Val => ((P ++ [k]) ++ pw.1, pw.2)) := by
                funext pw
                show (P ++ k :: pw.1, pw.2) = ((P ++ [k]) ++ pw.1, pw.2)
                rw [List.append_cons]
              rw [leaves_cons_obj, List.map_append, foldPaths_append, List.map_map, hfun]
              have hkpnone : lookupOwn p k = none := (lookupOwn_eq_none_iff p k).mpr hkp
              have hsetOwn : setOwn p k (Val.obj []) = p ++ [(k, Val.obj [])] :=
                setOwn_append_fresh p k _ hkp
              have hspecf := leaves_spec (sizeOf fields) fields le_rfl hgf
              have hlf : leaves fields ≠ [] := hspecf.2.2 hfne
              obtain ⟨e1, es1, he1⟩ := List.exists_cons_of_ne_nil hlf
              have hgp1 : goodPathP e1.1 :=
                (hspecf.1 e1 (he1 ▸ List.mem_cons_self _ _)).1
              obtain ⟨q, Q, hqQ⟩ := List.exists_cons_of_ne_nil hgp1.1
              have hgetP : getPathF (setPathF r P (setOwn p k (Val.obj []))) P =
                  some (p ++ [(k, Val.obj [])]) := by
                rw [hsetOwn]
                exact getPathF_setPathF P r p _ hget
              have hlookApp : lookupOwn (p ++ [(k, Val.obj [])]) k = some (Val.obj []) := by
                rw [lookupOwn_append_right p _ k hkp, lookupOwn_singleton]
              have hA1 : foldPaths ((leaves fields).map
                    (fun pw => ((P ++ [k]) ++ pw.1, pw.2))) r =
                  foldPaths ((leaves fields).map
                    (fun pw => ((P ++ [k]) ++ pw.1, pw.2)))
                    (setPathF r P (setOwn p k (Val.obj []))) := by
                rw [he1, List.map_cons, foldPaths_cons, foldPaths_cons]
                have hsh : ((P ++ [k]) ++ e1.1, e1.2).1 = P ++ k :: q :: Q := by
                  show (P ++ [k]) ++ e1.1 = _
                  rw [hqQ, ← List.append_cons]
                rw [hsh]
                rw [insertPath_precreate P r p k q Q e1.2 hget hkpnone hkproto]
              have hget' : getPathF (setPathF r P (setOwn p k (Val.obj []))) (P ++ [k]) =
                  some [] := by
                rw [getPathF_append P [k] _, hgetP, Option.some_bind,
                  getPathF_cons _ k [] [] hlookApp, getPathF_nil]
              have hA2 := ih fields (P ++ [k]) (setPathF r P (setOwn p k (Val.obj []))) []
                hszf hgf hget' (by intro k' _ hm; simp [keysOf] at hm)
              rw [List.nil_append] at hA2
              have hA3 : setPathF (setPathF r P (setOwn p k (Val.obj []))) (P ++ [k]) fields =
                  setPathF r P (p ++ [(k, Val.obj fields)]) := by
                rw [setPathF_snoc P _ (p ++ [(k, Val.obj [])]) k [] fields hgetP hlookApp,
                  setOwn_append_right p _ k _ hkp, setOwn_singleton, hsetOwn,
                  setPathF_setPathF P r p _ _ hget]
              rw [hA1, hA2, hA3, Option.some_bind]
              have hget2 : getPathF (setPathF r P (p ++ [(k, Val.obj fields)])) P =
                  some (p ++ [(k, Val.obj fields)]) := getPathF_setPathF P r p _ hget
              rw [ih rest P _ (p ++ [(k, Val.obj fields)]) hszr hrest hget2
                (hdisj2 (Val.obj fields)),
                setPathF_setPathF P r p _ _ hget, List.append_assoc]
              rfl

/-- Splitting the joined flat keys back recovers the leaf paths, so
`unflattenObject`'s fold agrees with `foldPaths` on good entries. -/
theorem foldlM_split_entries (entries : List (List String × Val)) :
    ∀ r : Row, (∀ pw ∈ entries, goodPathP pw.1) →
    (entries.map (fun pw => (pw.1.foldl prefKey "", pw.2))).foldlM
        (fun acc kv => insertPath acc (jsSplit kv.1 '.') kv.2) r
      = foldPaths entries r := by
  induction entries with
  | nil => intro r _; rfl
  | cons pw rest ih =>
      intro r h
      rw [List.map_cons, List.foldlM_cons, foldPaths_cons]
      have hgp : goodPathP pw.1 := h pw (List.mem_cons_self _ _)
      obtain ⟨k, p', hkp⟩ := List.exists_cons_of_ne_nil hgp.1
      have hsplit : jsSplit (pw.1.foldl prefKey "") '.' = pw.1 := by
        rw [hkp, foldl_prefKey_empty k p' (hgp.2 k (hkp ▸ List.mem_cons_self _ _)).1,
          jsSplit_joinDots (k :: p') (by simp) (fun k' hk' => hgp.2 k' (hkp ▸ hk'))]
      show (insertPath r (jsSplit (pw.1.foldl prefKey "") '.') pw.2 >>= fun acc =>
          (rest.map (fun pw => (pw.1.foldl prefKey "", pw.2))).foldlM
            (fun acc kv => insertPath acc (jsSplit kv.1 '.') kv.2) acc) = _
      rw [hsplit]
      cases hins : insertPath r pw.1 pw.2 with
      | none => rfl
      | some r' => exact ih r' (fun q hq => h q (List.mem_cons_of_mem _ hq))

/-- The flatten/unflatten round trip for every good object. -/
theorem unflatten_flattenObject (g : List (String × Val)) (hg : goodFields g = true) :
    unflattenObject (flattenObject g) = some g := by
  rw [flattenObject_eq_leavesMap g "" hg]
  show (leavesMap "" g).foldlM (fun acc kv => insertPath acc (jsSplit kv.1 '.') kv.2) []
    = some g
  unfold leavesMap
  rw [foldlM_split_entries (leaves g) []
    (fun pw hpw => ((leaves_spec (sizeOf g) g le_rfl hg).1 pw hpw).1)]
  have hmain := foldPaths_leaves (sizeOf g) g [] [] [] le_rfl hg rfl
    (by intro k _ hm; simp [keysOf] at hm)
  have hmap : (leaves g).map (fun pw => (([] : List String) ++ pw.1, pw.2)) = leaves g := by
    simp
  rw [hmap] at hmain
  rw [hmain, setPathF_nil, List.nil_append]

/-- C5 counterexample: an object whose field names contain no literal
dot but whose nested object is empty does not round-trip —
`flattenObject` drops empty-object values, so unflattening its output
yields the empty object. -/
theorem flatten_drops_empty_objects :
    flattenObject [("a", Val.obj [])] = [] ∧
    unflattenObject (flattenObject [("a", Val.obj [])]) = some [] ∧
    ([] : Row) ≠ [("a", Val.obj [])] := by
  refine ⟨?_, ?_, by decide⟩ <;>
    simp [flattenObject, flattenAux, jsAssign, unflattenObject]

/-- C5: for every object that is well-formed for the round trip —
every key non-empty and free of literal dots, keys unique per nesting
level, every nested object value non-empty, and no object-valued key
named after an `Object.prototype` property — `unflattenObject` inverts
`flattenObject`; and both of the spec's examples evaluate as stated. -/
theorem flatten_unflatten_roundtrip (x : Row) (hx : goodFields x = true) :
    unflattenObject (flattenObject x) = some x ∧
    flattenObject [("address", Val.obj [("city", Val.str "X")])] =
      [("address.city", Val.str "X")] ∧
    unflattenObject [("address.city", Val.str "X")] =
      some [("address", Val.obj [("city", Val.str "X")])] := by
  refine ⟨unflatten_flattenObject x hx, ?_, ?_⟩
  · simp [flattenObject, flattenAux, jsAssign, prefKey, setOwn]
  · simp [unflattenObject, insertPath, jsSplit, splitCharAux, setOwn, lookupOwn,
      objectProtoKeys]

/-- Witness for C5 instantiated at the spec's example object. -/
theorem flatten_unflatten_roundtrip_witness :
    goodFields [("address", Val.obj [("city", Val.str "X")])] = true ∧
    unflattenObject (flattenObject [("address", Val.obj [("city", Val.str "X")])]) =
      some [("address", Val.obj [("city", Val.str "X")])] :=
  ⟨by simp [goodFields, goodEntry, goodKey, keysOf, objectProtoKeys],
   (flatten_unflatten_roundtrip [("address", Val.obj [("city", Val.str "X")])]
     (by simp [goodFields, goodEntry, goodKey, keysOf, objectProtoKeys])).1⟩

/-- Witness for C6 instantiated at the spec's example rows. -/
theorem handleSort_stable_nulls_last_witness :
    (handleSort "n" SortDirection.asc
        [[("n", Val.str "b")], [("n", Val.null)], [("n", Val.str "a")]]).Perm
      [[("n", Val.str "b")], [("n", Val.null)], [("n", Val.str "a")]] ∧
    List.Pairwise (fun a b => ¬(keyRank "n" a = none ∧ keyRank "n" b ≠ none))
      (handleSort "n" SortDirection.asc
        [[("n", Val.str "b")], [("n", Val.null)], [("n", Val.str "a")]]) ∧
    List.Pairwise (fun a b => ∀ sa sb, keyRank "n" a = some sa → keyRank "n" b = some sb →
      dirLE SortDirection.asc sa sb)
      (handleSort "n" SortDirection.asc
        [[("n", Val.str "b")], [("n", Val.null)], [("n", Val.str "a")]]) ∧
    (∀ s : String,
      (handleSort "n" SortDirection.asc
          [[("n", Val.str "b")], [("n", Val.null)], [("n", Val.str "a")]]).filter
          (fun r => decide (keyRank "n" r = some s)) =
        ([[("n", Val.str "b")], [("n", Val.null)], [("n", Val.str "a")]] : List Row).filter
          (fun r => decide (keyRank "n" r = some s))) ∧
    handleSort "n" .asc [[("n", Val.str "b")], [("n", Val.null)], [("n", Val.str "a")]] =
      [[("n", Val.str "a")], [("n", Val.str "b")], [("n", Val.null)]] ∧
    handleSort "n" .desc [[("n", Val.str "b")], [("n", Val.null)], [("n", Val.str "a")]] =
      [[("n", Val.str "b")], [("n", Val.str "a")], [("n", Val.null)]] :=
  handleSort_stable_nulls_last "n" SortDirection.asc
    [[("n", Val.str "b")], [("n", Val.null)], [("n", Val.str "a")]]

end S2P

namespace S2P

/-- Witness for C3 on the spec's own example. -/
theorem inferSchema_first_non_null_witness :
    (∀ j row v,
      ([[("a", Val.null)],
        [("a", Val.arr [Val.num (.finite 1), Val.num (.finite 2)])]] : List Row).get? j =
          some row →
      lookupOwn row "a" = some v → v ≠ Val.null →
      (∀ i, i < j → ∀ r',
        ([[("a", Val.null)],
          [("a", Val.arr [Val.num (.finite 1), Val.num (.finite 2)])]] : List Row).get? i =
            some r' → nullishAt r' "a") →
      lookupType (inferSchema [[("a", Val.null)],
        [("a", Val.arr [Val.num (.finite 1), Val.num (.finite 2)])]]) "a" =
        some (classifyVal v)) ∧
    ((∀ row ∈ ([[("a", Val.null)],
        [("a", Val.arr [Val.num (.finite 1), Val.num (.finite 2)])]] : List Row),
      nullishAt row "a") →
      lookupType (inferSchema [[("a", Val.null)],
        [("a", Val.arr [Val.num (.finite 1), Val.num (.finite 2)])]]) "a" =
        some ColumnType.text) ∧
    inferSchema [[("a", Val.null)],
        [("a", Val.arr [Val.num (.finite 1), Val.num (.finite 2)])]] =
      [("a", ColumnType.list)] :=
  inferSchema_first_non_null _ "a" ⟨[("a", Val.null)], by decide, by decide⟩

end S2P
